import Mathlib

/-!
Verification development for the AxolotlDrive public-files service
(`services/public_files/public_files.go`).

The filesystem below the service's root directory (`publicDir`) is modelled
as a finite tree (`Entry`): a file carries its byte content (bytes as `Nat`),
a directory carries an association list of named children.  Absolute
canonical paths are represented by the list of path components relative to
the root, together with the abstract root string `pub` where the source
compares canonical strings textually.  Wall-clock derived fields (timestamps,
etags, mime types, UUIDs) are outside the model; they do not enter any
property proved here.  `os` errors other than the structural ones
(missing/extra entries, wrong node kind) are not modelled.
-/

namespace AxolotlDrive

/-- Filesystem tree: the root of the public directory is a `dir` node. -/
inductive Entry where
  | file (data : List Nat)
  | dir (children : List (String × Entry))
deriving Repr

/-- Association-list lookup of a child by name (models directory lookup). -/
def findChild (ch : List (String × Entry)) (name : String) : Option Entry :=
  match ch with
  | [] => none
  | (n, e) :: rest => if n = name then some e else findChild rest name

/-- Replace (or append) the child binding `name`. -/
def setChild (ch : List (String × Entry)) (name : String) (e : Entry) :
    List (String × Entry) :=
  match ch with
  | [] => [(name, e)]
  | (n, x) :: rest =>
      if n = name then (n, e) :: rest else (n, x) :: setChild rest name e

/-- Delete the child binding `name`.  Directory listings of a real
filesystem carry each name at most once, so removing every binding with the
name coincides with removing the single one. -/
def delChild (ch : List (String × Entry)) (name : String) :
    List (String × Entry) :=
  match ch with
  | [] => []
  | (n, x) :: rest =>
      if n = name then delChild rest name else (n, x) :: delChild rest name

/-- Resolve a relative component path in the tree (models `os.Stat` traversal;
`[]` is the root itself). -/
def lookup : Entry → List String → Option Entry
  | e, [] => some e
  | .file _, _ :: _ => none
  | .dir ch, c :: rest =>
      match findChild ch c with
      | none => none
      | some e => lookup e rest

/-- `true` iff the optional entry is a directory. -/
def isDirE : Option Entry → Bool
  | some (.dir _) => true
  | _ => false

/-- `true` iff the entry is a file node. -/
def isFileE : Entry → Bool
  | .file _ => true
  | .dir _ => false

/-- Set the entry at a path whose parent chain already exists as directories;
`none` when the traversal breaks (missing parent or file in the chain). -/
def putAt : Entry → List String → Entry → Option Entry
  | _, [], v => some v
  | .file _, _ :: _, _ => none
  | .dir ch, [c], v => some (.dir (setChild ch c v))
  | .dir ch, c :: c2 :: rest, v =>
      match findChild ch c with
      | none => none
      | some e => (putAt e (c2 :: rest) v).map fun e2 => .dir (setChild ch c e2)

/-- Remove the entry at a path (no-op when it is absent; the root itself is
never removed by this helper).  Models `os.Remove`/`os.RemoveAll` on a
strictly-below-root path. -/
def removeAt : Entry → List String → Entry
  | e, [] => e
  | .file d, _ :: _ => .file d
  | .dir ch, [c] => .dir (delChild ch c)
  | .dir ch, c :: c2 :: rest =>
      match findChild ch c with
      | none => .dir ch
      | some e => .dir (setChild ch c (removeAt e (c2 :: rest)))

/-- Models `os.MkdirAll`: create every missing directory along the path;
fails (`none`) iff some existing entry along the path is a file. -/
def mkdirAll : Entry → List String → Option Entry
  | .file _, [] => none
  | .dir ch, [] => some (.dir ch)
  | .file _, _ :: _ => none
  | .dir ch, c :: rest =>
      match findChild ch c with
      | some e => (mkdirAll e rest).map fun e2 => .dir (setChild ch c e2)
      | none => (mkdirAll (.dir []) rest).map fun e2 => .dir (setChild ch c e2)

/-- Models `os.WriteFile` (and `os.Create` for empty data): the parent must
already be a directory, the target must not be a directory; creates or
truncates the target file. -/
def writeFileAt (t : Entry) (comps : List String) (data : List Nat) :
    Option Entry :=
  if comps.isEmpty then none
  else if isDirE (lookup t comps.dropLast) = false then none
  else if isDirE (lookup t comps) then none
  else putAt t comps (.file data)

/-! ## String machinery of the sanitizers

Byte-level Go string operations are modelled on `List Char`; every pattern
involved is ASCII, where Go's byte-wise operations coincide with the
character-wise ones used here. -/

/-- Models `strings.Contains s pat` (all patterns used are non-empty). -/
def containsSub (s pat : String) : Bool :=
  decide (pat.toList <:+: s.toList)

/-- Models `strings.ToLower` (character-wise lowercasing; every string the
service lowercases is ASCII, where Go's mapping coincides with
`Char.toLower`). -/
def toLowerStr (s : String) : String :=
  ⟨s.data.map Char.toLower⟩

/-- The fixed denylist of `sanitizePathForRead`/`sanitizePathForWrite`. -/
def dangerousPatterns : List String :=
  ["..", "%2e%2e", "%252e%252e", "/etc/", "/root/", "/home/",
   "\\", ":", "*", "?", "\"", "<", ">", "|", "\x00", "~", "$", "&", ";",
   "\x60", "\x27", "(", ")", "\x7b", "\x7d", "[", "]"]

/-- `true` iff the raw input contains some denylisted substring. -/
def hasDangerous (s : String) : Bool :=
  dangerousPatterns.any fun p => containsSub s p

/-- Models `strings.Trim(s, "/")` on the character list. -/
def trimSlashes (cs : List Char) : List Char :=
  ((cs.dropWhile fun c => c == '/').reverse.dropWhile fun c => c == '/').reverse

/-- Models `strings.Trim(strings.ReplaceAll(input, "\\", "/"), "/")`. -/
def normalizeChars (s : String) : List Char :=
  trimSlashes (s.toList.map fun c => if c == '\\' then '/' else c)

/-- The backslash-to-slash replacement step of the normalizer. -/
def slashify (c : Char) : Char := if c == '\\' then '/' else c

/-- Models `strings.Split` on `'/'`. -/
def splitSlashAux : List Char → List Char → List (List Char)
  | [], acc => [acc.reverse]
  | c :: cs, acc =>
      if c == '/' then acc.reverse :: splitSlashAux cs []
      else splitSlashAux cs (c :: acc)

/-- All `'/'`-separated fields of a character list. -/
def splitSlash (cs : List Char) : List (List Char) :=
  splitSlashAux cs []

/-- The component list of the canonical path `filepath.Join(pub, normalized)`
relative to `pub`: `filepath.Clean` drops empty and `"."` segments of a
`..`-free relative path. -/
def cleanComponents (normalized : List Char) : List String :=
  ((splitSlash normalized).filter fun l => !(l.isEmpty) && !(l == ['.'])).map
    fun l => String.mk l

/-- Models `strings.HasPrefix s pre`. -/
def hasPrefixStr (s pre : String) : Bool :=
  pre.toList.isPrefixOf s.toList

/-- `"/"`-joined relative path of a component list. -/
def joinComps (comps : List String) : String :=
  String.intercalate "/" comps

/-- The canonical absolute path of a component list below the root `pub`
(`filepath.Abs` of the joined path; purely lexical, as in the source). -/
def canonicalOf (pub : String) (comps : List String) : String :=
  if comps.isEmpty then pub else pub ++ "/" ++ joinComps comps

/-- `true` iff the name starts with `'.'` (models
`strings.HasPrefix(name, ".") || name == "." || name == ".."`). -/
def startsDot (s : String) : Bool :=
  match s.toList with
  | [] => false
  | c :: _ => c == '.'

/-- The per-component re-check loop of `sanitizePathForRead` (hidden
components, then defensive character re-check), in source order. -/
def checkComponents : List String → Except String Unit
  | [] => .ok ()
  | c :: rest =>
      if startsDot c && !(c == ".") then
        .error "access to hidden files is not allowed"
      else if c.toList.contains '\x00' || c.toList.contains '/' ||
          c.toList.contains '\\' then
        .error "invalid filename characters"
      else checkComponents rest

/-- Models `sanitizePathForRead`: denylist, normalization, canonicalization,
root-prefix check, existence check (`os.Stat`), per-component checks.  The
returned value is the canonical path as components relative to the root
(`[]` is the root itself). -/
def sanitizePathForRead (pub : String) (root : Entry) (input : String) :
    Except String (List String) :=
  if hasDangerous input then .error "dangerous pattern detected"
  else
    let normalized := normalizeChars input
    if normalized.isEmpty then .ok []
    else
      let comps := cleanComponents normalized
      if hasPrefixStr (canonicalOf pub comps) pub = false then
        .error "path escape attempt detected"
      else
        match lookup root comps with
        | none => .error "directory does not exist"
        | some _ =>
          match checkComponents comps with
          | .error e => .error e
          | .ok _ => .ok comps

/-- Models `sanitizePathForWrite`: denylist, normalization, non-emptiness,
parent-within-root check, final-component checks.  When the cleaned path has
no component (input cleans to the root itself), `filepath.Dir(canonical)` is
the parent of the root, which does not lie below the root for any root
strictly below `"/"`, so the source's parent-prefix check fails: that case is
the `none` branch of `getLast?`. -/
def sanitizePathForWrite (pub : String) (input : String) :
    Except String (List String) :=
  if hasDangerous input then .error "dangerous pattern detected"
  else
    let normalized := normalizeChars input
    if normalized.isEmpty then .error "path cannot be empty"
    else
      let comps := cleanComponents normalized
      match comps.getLast? with
      | none => .error "path escape attempt detected"
      | some fileName =>
        if hasPrefixStr (canonicalOf pub comps.dropLast) pub = false then
          .error "path escape attempt detected"
        else if startsDot fileName then .error "cannot create hidden files"
        else if 255 < fileName.utf8ByteSize then .error "filename too long"
        else if fileName.toList.contains '\x00' ||
            fileName.toList.contains '/' || fileName.toList.contains '\\' then
          .error "invalid filename characters"
        else .ok comps

/-! ## Pagination

The Go code converts the incoming `int` page/limit values and the item count
to `int32` and computes with `int32` arithmetic; every such operation wraps
modulo `2^32`.  A Go slice expression `items[start:end]` panics unless
`0 <= start <= end <= len(items)`; the panic is modelled as `none`. -/

/-- Conversion of a (64-bit) integer to `int32`, two's-complement wrap. -/
def toInt32 (n : Int) : Int :=
  (n + 2 ^ 31) % 2 ^ 32 - 2 ^ 31

/-- The result shape of `dtos.PaginatedItems`. -/
structure PaginatedItems (α : Type) where
  items : List α
  total : Int
  page : Int
  limit : Int
  totalPages : Int
  hasNext : Bool
  hasPrev : Bool
deriving Repr, DecidableEq

/-- `page := int32(pageVal); if page < 1 { page = 1 }`. -/
def clampPage (pageVal : Int) : Int :=
  if toInt32 pageVal < 1 then 1 else toInt32 pageVal

/-- `limit := int32(limitVal)`, raised to 10, then capped at `maxLimit`. -/
def clampLimit (maxLimit limitVal : Int) : Int :=
  if (if toInt32 limitVal < 10 then 10 else toInt32 limitVal) > maxLimit
  then maxLimit
  else if toInt32 limitVal < 10 then 10 else toInt32 limitVal

/-- Go slice `items[s:e]`; `none` models the bounds panic. -/
def goSlice (items : List α) (s e : Int) : Option (List α) :=
  if s < 0 ∨ e < s ∨ (items.length : Int) < e then none
  else some ((items.drop s.toNat).take (e - s).toNat)

/-- The pagination tail shared verbatim by `listItemsImpl` (maxLimit 100)
and `SearchItems` (maxLimit 500), in `int32` arithmetic. -/
def paginateCore (maxLimit : Int) (items : List α) (pageVal limitVal : Int) :
    Option (PaginatedItems α) :=
  let page := clampPage pageVal
  let limit := clampLimit maxLimit limitVal
  let total := toInt32 (items.length : Int)
  let totalPages := Int.tdiv (toInt32 (toInt32 (total + limit) - 1)) limit
  let start := toInt32 ((page - 1) * limit)
  let e0 := toInt32 (start + limit)
  let endv := if e0 > total then total else e0
  if start < (items.length : Int) then
    match goSlice items start endv with
    | none => none
    | some sliced =>
        some ⟨sliced, total, page, limit, totalPages,
          decide (page < totalPages), decide (page > 1)⟩
  else
    some ⟨[], total, page, limit, totalPages,
      decide (page < totalPages), decide (page > 1)⟩

/-! ## FileSystemItem construction and sorting

Identifier, etag, mime type and timestamps are derived from the path/size
(plus wall-clock data outside the model) and play no role in any claim; the
modelled `Item` keeps the fields the claims speak about. -/

/-- The modelled projection of `dtos.FileSystemItem`. -/
structure Item where
  name : String
  path : List String
  size : Int
  isDir : Bool
deriving Repr, DecidableEq

/-- `info.Size()` for files; directory sizes are platform noise, fixed 0. -/
def entrySize : Entry → Int
  | .file d => (d.length : Int)
  | .dir _ => 0

/-- Build an item for entry `e` visible under name `name` at relative path
`path`. -/
def mkItem (name : String) (path : List String) (e : Entry) : Item :=
  ⟨name, path, entrySize e, !(isFileE e)⟩

/-- Directory entries sorted by name, as returned by `os.ReadDir` /
`filepath.Walk`'s `readDirNames`. -/
def sortPairs (ch : List (String × Entry)) : List (String × Entry) :=
  List.insertionSort (fun a b => a.1.toList ≤ b.1.toList) ch

/-- The `sort.Slice` comparator of `listItemsImpl`: directories first, then
case-insensitive name order. -/
def goLess (a b : Item) : Bool :=
  if a.isDir != b.isDir then a.isDir
  else decide ((toLowerStr a.name).toList < (toLowerStr b.name).toList)

/-- Non-strict order induced by `goLess`; a list sorted by `sort.Slice` with
`goLess` is exactly a list `Sorted itemLE`. -/
def itemLE (a b : Item) : Prop := goLess b a = false

instance : DecidableRel itemLE := fun a b =>
  inferInstanceAs (Decidable (goLess b a = false))

/-- Item at `base ++ [name]` as built by `listItemsImpl`. -/
def mkListItem (base : List String) (n : String) (e : Entry) : Item :=
  mkItem n (base ++ [n]) e

/-- The pre-sort item list of `listItemsImpl`: directory entries in
`os.ReadDir` order with dotfiles skipped. -/
def buildListItems (base : List String) (ch : List (String × Entry)) :
    List Item :=
  (sortPairs ch).filterMap fun p =>
    if startsDot p.1 then none else some (mkListItem base p.1 p.2)

/-- The full (pre-pagination) sorted listing of the directory at `comps`. -/
def listFull (comps : List String) (ch : List (String × Entry)) : List Item :=
  List.insertionSort itemLE (buildListItems comps ch)

/-- `listItemsImpl` after path resolution: stat, type check, build, sort,
paginate. -/
def listItemsAt (root : Entry) (comps : List String) (pageVal limitVal : Int) :
    Except String (PaginatedItems Item) :=
  match lookup root comps with
  | none => .error "Directory not found"
  | some (.file _) => .error "Path is not a directory"
  | some (.dir ch) =>
    match paginateCore 100 (listFull comps ch) pageVal limitVal with
    | none => .error "runtime error: slice bounds out of range"
    | some r => .ok r

/-- Models `listItemsImpl` (`ensurePublicDir` is the standing assumption that
the root entry exists). -/
def listItemsImpl (pub : String) (root : Entry) (pathPtr : Option String)
    (pageVal limitVal : Int) : Except String (PaginatedItems Item) :=
  match pathPtr with
  | none => listItemsAt root [] pageVal limitVal
  | some path =>
    match sanitizePathForRead pub root path with
    | .error e => .error e
    | .ok comps => listItemsAt root comps pageVal limitVal

/-- Models `ListItems`: empty, `"/"` and `"*"` list the root. -/
def ListItems (pub : String) (root : Entry) (path : String)
    (pageVal limitVal : Int) : Except String (PaginatedItems Item) :=
  if path = "" ∨ path = "/" ∨ path = "*" then
    listItemsImpl pub root none pageVal limitVal
  else listItemsImpl pub root (some path) pageVal limitVal

/-! ## Search -/

/-- `filepath.Rel(publicDir, path)` in components: the walk root itself is
`"."`. -/
def pathOfRel (rel : List String) : List String :=
  if rel.isEmpty then ["."] else rel

/-- Item built by the `SearchItems` walk callback. -/
def mkSearchItem (name : String) (rel : List String) (e : Entry) : Item :=
  mkItem name (pathOfRel rel) e

/-- One invocation of the `filepath.Walk` callback of `SearchItems`:
dotfile skip, collected-count cutoff (returned `Bool` is `filepath.SkipDir`),
case-insensitive substring match on the entry name. -/
def callbackStep (q : String) (cutoff : Int) (name : String)
    (rel : List String) (e : Entry) (acc : List Item) : List Item × Bool :=
  if startsDot name then (acc, false)
  else if cutoff ≤ (acc.length : Int) then (acc, true)
  else if containsSub (toLowerStr name) q then (acc ++ [mkSearchItem name rel e], false)
  else (acc, false)

mutual

/-- `filepath.Walk` on one node (`name` its base name, `rel` its path
relative to the walk root, `[]` for the root itself).  The second component
is `true` iff the callback returned `filepath.SkipDir` for this node; per
`filepath.Walk`, `SkipDir` from a directory skips its subtree only, while
`SkipDir` from a file makes the enclosing loop skip the remaining siblings. -/
def walkE (q : String) (cutoff : Int) (name : String) (rel : List String)
    (e : Entry) (acc : List Item) : List Item × Bool :=
  match e with
  | .file d => callbackStep q cutoff name rel (.file d) acc
  | .dir ch =>
      let st := callbackStep q cutoff name rel (.dir ch) acc
      if st.2 then (st.1, true)
      else (walkL q cutoff rel ch st.1, false)
termination_by structural e

/-- The sibling loop of `filepath.Walk` over the children of a directory
whose relative path is `base`. -/
def walkL (q : String) (cutoff : Int) (base : List String)
    (ch : List (String × Entry)) (acc : List Item) : List Item :=
  match ch with
  | [] => acc
  | (n, e) :: rest =>
      let st := walkE q cutoff n (base ++ [n]) e acc
      if st.2 && isFileE e then st.1
      else walkL q cutoff base rest st.1
termination_by structural ch

end

mutual

/-- Recursively order every directory's children by name: the on-disk tree
seen through `filepath.Walk`, which reads each directory sorted. -/
def sortTree (e : Entry) : Entry :=
  match e with
  | .file d => .file d
  | .dir ch => .dir (sortPairs (sortTreeL ch))
termination_by structural e

/-- `sortTree` mapped over children. -/
def sortTreeL (ch : List (String × Entry)) : List (String × Entry) :=
  match ch with
  | [] => []
  | (n, e) :: rest => (n, sortTree e) :: sortTreeL rest
termination_by structural ch

end

/-- Models `SearchItems`; `rootName` is `filepath.Base(publicDir)`, the name
under which the walk root itself is visited.  The cutoff is
`int(int32(pageVal) * int32(limitVal))` exactly as in the source. -/
def SearchItems (rootName : String) (root : Entry) (query : String)
    (pageVal limitVal : Int) : Except String (PaginatedItems Item) :=
  let queryLower := toLowerStr query
  if queryLower = "" ∨ 255 < queryLower.utf8ByteSize then
    .error "Search query must be 1-255 characters"
  else
    let cutoff := toInt32 (toInt32 pageVal * toInt32 limitVal)
    let results := (walkE queryLower cutoff rootName [] (sortTree root) []).1
    match paginateCore 500 results pageVal limitVal with
    | none => .error "runtime error: slice bounds out of range"
    | some r => .ok r

/-! ## Mutating operations

Each returns the post-state, the call's outcome, and the list of broadcast
notification event types. -/

/-- Post-state, outcome and notifications of one mutating call. -/
structure OpOut (α : Type) where
  fs : Entry
  res : Except String α
  notifs : List String

/-- Models `CreateFolder`: sanitize for write, `MkdirAll` on the parent,
`Mkdir` (which fails with `EEXIST` when the target pre-exists). -/
def CreateFolder (pub : String) (root : Entry) (path : String) : OpOut Unit :=
  match sanitizePathForWrite pub path with
  | .error e => ⟨root, .error e, []⟩
  | .ok comps =>
    match mkdirAll root comps.dropLast with
    | none => ⟨root, .error "Failed to create parent directories", []⟩
    | some r1 =>
      match lookup r1 comps with
      | some _ => ⟨r1, .error "Directory already exists", []⟩
      | none =>
        match putAt r1 comps (.dir []) with
        | none => ⟨r1, .error "Failed to create folder", []⟩
        | some r2 => ⟨r2, .ok (), ["folder_created"]⟩

/-- Models `CreateFile`: sanitize for write, `MkdirAll` on the parent, then
`os.WriteFile(path, []byte{})` — which truncates an existing regular file
and fails only when the target is a directory. -/
def CreateFile (pub : String) (root : Entry) (path : String) : OpOut Unit :=
  match sanitizePathForWrite pub path with
  | .error e => ⟨root, .error e, []⟩
  | .ok comps =>
    match mkdirAll root comps.dropLast with
    | none => ⟨root, .error "Failed to create parent directories", []⟩
    | some r1 =>
      match writeFileAt r1 comps [] with
      | none => ⟨r1, .error "Failed to create file", []⟩
      | some r2 => ⟨r2, .ok (), ["file_created"]⟩

/-- `maxChunkSize` of the source (10 MiB). -/
def maxChunkSize : Nat := 10 * 1024 * 1024

/-- `maxTotalSize` of the source (1 TiB). -/
def maxTotalSize : Nat := 1 * 1024 * 1024 * 1024 * 1024

/-- The read/write loop of `UploadFile` over the chunks delivered by the
reader; `none` models the size-cap abort (check after adding the chunk,
before writing it). -/
def uploadLoop (chunks : List (List Nat)) (total : Nat) (content : List Nat) :
    Option (List Nat × Nat) :=
  match chunks with
  | [] => some (content, total)
  | c :: rest =>
      if c.length = 0 then uploadLoop rest total content
      else
        let t := total + c.length
        if maxTotalSize < t then none
        else uploadLoop rest t (content ++ c)

/-- Models `UploadFile`: sanitize for write, create parents, `os.Create`,
stream the chunks (abort over the cumulative cap deletes the partial file),
notify `file_created` on success; returns the byte total. -/
def UploadFile (pub : String) (root : Entry) (path : String)
    (chunks : List (List Nat)) : OpOut Nat :=
  match sanitizePathForWrite pub path with
  | .error e => ⟨root, .error e, []⟩
  | .ok comps =>
    match mkdirAll root comps.dropLast with
    | none => ⟨root, .error "Failed to create parent directories", []⟩
    | some r1 =>
      match writeFileAt r1 comps [] with
      | none => ⟨r1, .error "Failed to create file", []⟩
      | some r2 =>
        match uploadLoop chunks 0 [] with
        | none =>
            ⟨removeAt r2 comps, .error "File size exceeds maximum limit", []⟩
        | some (content, total) =>
          match writeFileAt r2 comps content with
          | none => ⟨r2, .error "Failed to write chunk", []⟩
          | some r3 => ⟨r3, .ok total, ["file_created"]⟩

/-- Models `os.Rename` on already-validated paths: fails when the source is
an ancestor of (or equal to) the destination, or when the destination's
parent does not resolve to an existing directory; otherwise moves the
node. -/
def renameOp (root : Entry) (oldC newC : List String) : Option Entry :=
  if oldC.isPrefixOf newC then none
  else
    match lookup root oldC with
    | none => none
    | some src =>
      if isDirE (lookup root newC.dropLast) = false then none
      else putAt (removeAt root oldC) newC src

/-- Models `RenameFile`: sanitize both for write, source must exist,
destination must not, then `os.Rename`. -/
def RenameFile (pub : String) (root : Entry) (oldPath newPath : String) :
    OpOut Unit :=
  match sanitizePathForWrite pub oldPath with
  | .error e => ⟨root, .error e, []⟩
  | .ok oldC =>
  match sanitizePathForWrite pub newPath with
  | .error e => ⟨root, .error e, []⟩
  | .ok newC =>
  match lookup root oldC with
  | none => ⟨root, .error "Source file does not exist", []⟩
  | some _ =>
  match lookup root newC with
  | some _ => ⟨root, .error "Destination file already exists", []⟩
  | none =>
  match renameOp root oldC newC with
  | none => ⟨root, .error "Failed to rename file", []⟩
  | some r => ⟨r, .ok (), ["file_renamed"]⟩

/-- Models `CopyFile`: sanitize both for write, source must exist,
destination must not, `MkdirAll` on the destination parent (error ignored in
the source), `os.ReadFile` (fails when the source is a directory),
`os.WriteFile`; reports `bytes_copied` on success. -/
def CopyFile (pub : String) (root : Entry) (source destination : String) :
    OpOut Nat :=
  match sanitizePathForWrite pub source with
  | .error e => ⟨root, .error e, []⟩
  | .ok srcC =>
  match sanitizePathForWrite pub destination with
  | .error e => ⟨root, .error e, []⟩
  | .ok dstC =>
  match lookup root srcC with
  | none => ⟨root, .error "Source file does not exist", []⟩
  | some _ =>
  match lookup root dstC with
  | some _ => ⟨root, .error "Destination file already exists", []⟩
  | none =>
    let r1 := (mkdirAll root dstC.dropLast).getD root
    match lookup r1 srcC with
    | some (.file data) =>
      match writeFileAt r1 dstC data with
      | none => ⟨r1, .error "Failed to copy file", []⟩
      | some r2 => ⟨r2, .ok data.length, ["file_copied"]⟩
    | _ => ⟨r1, .error "Failed to copy file", []⟩

/-- Models `DeleteItem`: sanitize for read (which maps the empty normalized
input to the root), stat, then `os.RemoveAll` for directories and
`os.Remove` for files — both delete exactly the resolved node, so they share
`removeAt`; deleting the root itself (`comps = []`) removes the whole store
(`none`). -/
def DeleteItem (pub : String) (root : Entry) (path : String) :
    Option Entry × Except String Unit × List String :=
  match sanitizePathForRead pub root path with
  | .error e => (some root, .error e, [])
  | .ok comps =>
    match lookup root comps with
    | none => (some root, .error "File not found", [])
    | some _ =>
      if comps.isEmpty then (none, .ok (), ["file_deleted"])
      else (some (removeAt root comps), .ok (), ["file_deleted"])

/-! ## Lemmas: canonical-path machinery -/

theorem isPrefixOf_append_self (l t : List Char) :
    l.isPrefixOf (l ++ t) = true := by
  rw [List.isPrefixOf_iff_prefix]
  exact List.prefix_append l t

/-- The canonical path of any component list below `pub` passes the
`strings.HasPrefix` confinement check. -/
theorem hasPrefixStr_canonicalOf (pub : String) (comps : List String) :
    hasPrefixStr (canonicalOf pub comps) pub = true := by
  unfold hasPrefixStr canonicalOf
  by_cases h : comps.isEmpty
  · simp only [h, if_pos]
    rw [List.isPrefixOf_iff_prefix]
  · simp only [h, if_neg, Bool.false_eq_true, not_false_iff]
    rw [List.isPrefixOf_iff_prefix]
    show pub.toList <+: ((pub ++ "/") ++ joinComps comps).toList
    simp only [String.toList, String.data_append, List.append_assoc]
    exact List.prefix_append pub.data _

/-- A character absent (as singleton pattern) from a string is not among the
string's characters. -/
theorem not_mem_of_not_containsSub {s : String} {c : Char}
    (h : containsSub s (String.mk [c]) = false) : c ∉ s.toList := by
  intro hc
  obtain ⟨l1, l2, heq⟩ := List.append_of_mem hc
  have hinf : (String.mk [c]).toList <:+: s.toList := by
    refine ⟨l1, l2, ?_⟩
    simpa using heq.symm
  rw [containsSub, decide_eq_false_iff_not] at h
  exact h hinf

theorem normalizeChars_eq (s : String) :
    normalizeChars s = trimSlashes (s.toList.map slashify) := rfl

theorem backslash_not_mem_map_slashify (cs : List Char) :
    '\\' ∉ cs.map slashify := by
  intro h
  obtain ⟨c, _, hc⟩ := List.mem_map.mp h
  by_cases hb : c = '\\' <;> simp [slashify, hb] at hc

theorem mem_map_slashify_of_ne {cs : List Char} {x : Char}
    (h : x ∈ cs.map slashify) (hx : x ≠ '/') : x ∈ cs := by
  obtain ⟨c, hc, rfl⟩ := List.mem_map.mp h
  by_cases hb : c = '\\'
  · simp [slashify, hb] at hx
  · simpa [slashify, hb] using hc

theorem mem_of_mem_trimSlashes {cs : List Char} {x : Char}
    (h : x ∈ trimSlashes cs) : x ∈ cs := by
  unfold trimSlashes at h
  rw [List.mem_reverse] at h
  have h1 := (List.dropWhile_sublist _).mem h
  rw [List.mem_reverse] at h1
  exact (List.dropWhile_sublist _).mem h1

/-- Every character of every field of `splitSlashAux cs acc` either comes
from `cs` and is not a slash, or was pending in `acc`. -/
theorem mem_splitSlashAux {cs acc : List Char} {l : List Char} {x : Char}
    (hl : l ∈ splitSlashAux cs acc) (hx : x ∈ l) :
    (x ∈ cs ∧ x ≠ '/') ∨ x ∈ acc := by
  induction cs generalizing acc with
  | nil =>
    simp [splitSlashAux] at hl
    subst hl
    right; simpa using hx
  | cons c cs ih =>
    simp only [splitSlashAux] at hl
    by_cases hc : c = '/'
    · simp [hc] at hl
      rcases hl with hl | hl
      · subst hl
        right; simpa using hx
      · rcases ih hl with ⟨h1, h2⟩ | h2
        · exact .inl ⟨List.mem_cons_of_mem _ h1, h2⟩
        · simp at h2
    · simp [hc] at hl
      rcases ih hl with ⟨h1, h2⟩ | h2
      · exact .inl ⟨List.mem_cons_of_mem _ h1, h2⟩
      · rcases List.mem_cons.mp h2 with rfl | h3
        · exact .inl ⟨List.mem_cons_self _ _, hc⟩
        · exact .inr h3

theorem mem_splitSlash {cs : List Char} {l : List Char} {x : Char}
    (hl : l ∈ splitSlash cs) (hx : x ∈ l) : x ∈ cs ∧ x ≠ '/' := by
  rcases mem_splitSlashAux hl hx with h | h
  · exact h
  · simp at h

/-- Characters of any component produced by `cleanComponents` come from the
normalized input and exclude `'/'`. -/
theorem mem_comp_cleanComponents {normalized : List Char} {c : String}
    (hc : c ∈ cleanComponents normalized) {x : Char} (hx : x ∈ c.toList) :
    x ∈ normalized ∧ x ≠ '/' := by
  unfold cleanComponents at hc
  obtain ⟨l, hl, rfl⟩ := List.mem_map.mp hc
  have hl2 := (List.mem_filter.mp hl).1
  exact mem_splitSlash ((splitSlash normalized).mem_of_mem_filter hl) hx

/-- The defensive character re-checks of the sanitizers never fire on
cleaned components of a denylist-free input. -/
theorem comp_chars_clean {input : String} (hd : hasDangerous input = false)
    {c : String} (hc : c ∈ cleanComponents (normalizeChars input)) :
    '\x00' ∉ c.toList ∧ '/' ∉ c.toList ∧ '\\' ∉ c.toList := by
  have hnul : ('\x00' : Char) ∉ input.toList := by
    apply not_mem_of_not_containsSub (c := '\x00')
    simp only [hasDangerous, dangerousPatterns, List.any_eq_false] at hd
    have := hd "\x00" (by simp)
    simpa using this
  refine ⟨?_, ?_, ?_⟩
  · intro hx
    have h1 := (mem_comp_cleanComponents hc hx).1
    rw [normalizeChars_eq] at h1
    have h2 := mem_of_mem_trimSlashes h1
    have h3 := mem_map_slashify_of_ne h2 (by decide)
    exact hnul h3
  · intro hx
    exact (mem_comp_cleanComponents hc hx).2 rfl
  · intro hx
    have h1 := (mem_comp_cleanComponents hc hx).1
    rw [normalizeChars_eq] at h1
    exact backslash_not_mem_map_slashify _ (mem_of_mem_trimSlashes h1)

theorem checkComponents_ok {comps : List String}
    (h1 : ∀ c ∈ comps, startsDot c = false)
    (h2 : ∀ c ∈ comps, '\x00' ∉ c.toList ∧ '/' ∉ c.toList ∧ '\\' ∉ c.toList) :
    checkComponents comps = .ok () := by
  induction comps with
  | nil => rfl
  | cons c rest ih =>
    have hc := h1 c (List.mem_cons_self _ _)
    have hcc := h2 c (List.mem_cons_self _ _)
    unfold checkComponents
    rw [hc]
    simp only [Bool.false_and, Bool.false_eq_true, if_false]
    have e1 : c.toList.contains '\x00' = false := by
      simpa using hcc.1
    have e2 : c.toList.contains '/' = false := by
      simpa using hcc.2.1
    have e3 : c.toList.contains '\\' = false := by
      simpa using hcc.2.2
    rw [e1, e2, e3]
    simp only [Bool.or_self, Bool.false_or, Bool.false_eq_true, if_false]
    exact ih (fun d hdm => h1 d (List.mem_cons_of_mem _ hdm))
      (fun d hdm => h2 d (List.mem_cons_of_mem _ hdm))

/-- If the normalized input is empty its cleaned component list is empty. -/
theorem cleanComponents_nil : cleanComponents [] = [] := rfl

/-- Read-side resolution succeeds, returning the cleaned components, for
every denylist-free input whose target exists and has no hidden
component. -/
theorem sanitizePathForRead_ok (pub input : String) (root : Entry)
    (hd : hasDangerous input = false)
    (hex : (lookup root (cleanComponents (normalizeChars input))).isSome)
    (hh : ∀ c ∈ cleanComponents (normalizeChars input), startsDot c = false) :
    sanitizePathForRead pub root input =
      .ok (cleanComponents (normalizeChars input)) := by
  unfold sanitizePathForRead
  rw [hd]
  simp only [Bool.false_eq_true, if_false]
  by_cases hn : (normalizeChars input).isEmpty
  · have : normalizeChars input = [] := by
      simpa [List.isEmpty_iff] using hn
    simp [hn, this, cleanComponents_nil]
  · simp only [hn, Bool.false_eq_true, if_false]
    rw [hasPrefixStr_canonicalOf]
    simp only [reduceCtorEq, if_false]
    obtain ⟨e, he⟩ := Option.isSome_iff_exists.mp hex
    rw [he]
    rw [checkComponents_ok hh (fun c hc => comp_chars_clean hd hc)]

/-- Write-side resolution succeeds, returning the cleaned components, for
every denylist-free input with at least one cleaned component whose final
component is non-hidden and at most 255 bytes long. -/
theorem sanitizePathForWrite_ok (pub input : String) {fileName : String}
    (hd : hasDangerous input = false)
    (hlast : (cleanComponents (normalizeChars input)).getLast? = some fileName)
    (hh : startsDot fileName = false)
    (hlen : fileName.utf8ByteSize ≤ 255) :
    sanitizePathForWrite pub input =
      .ok (cleanComponents (normalizeChars input)) := by
  unfold sanitizePathForWrite
  rw [hd]
  simp only [Bool.false_eq_true, if_false]
  have hne : ¬ (normalizeChars input).isEmpty := by
    intro hn
    have : normalizeChars input = [] := by
      simpa [List.isEmpty_iff] using hn
    rw [this, cleanComponents_nil] at hlast
    simp at hlast
  simp only [hne, Bool.false_eq_true, if_false]
  rw [hlast]
  rw [hasPrefixStr_canonicalOf]
  simp only [reduceCtorEq, if_false]
  rw [hh]
  simp only [Bool.false_eq_true, if_false]
  rw [if_neg (by omega)]
  have hmem : fileName ∈ cleanComponents (normalizeChars input) := by
    obtain ⟨hne2, heq⟩ :=
      List.mem_getLast?_eq_getLast (Option.mem_def.mpr hlast)
    rw [heq]
    exact List.getLast_mem hne2
  have hcc := comp_chars_clean hd hmem
  have e1 : fileName.toList.contains '\x00' = false := by simpa using hcc.1
  have e2 : fileName.toList.contains '/' = false := by simpa using hcc.2.1
  have e3 : fileName.toList.contains '\\' = false := by simpa using hcc.2.2
  rw [e1, e2, e3]
  simp

/-! ## Lemmas: tree operations -/

theorem findChild_setChild_self (ch : List (String × Entry)) (c : String)
    (e : Entry) : findChild (setChild ch c e) c = some e := by
  induction ch with
  | nil => simp [setChild, findChild]
  | cons p rest ih =>
    obtain ⟨n, x⟩ := p
    by_cases h : n = c <;> simp [setChild, findChild, h, ih]

theorem findChild_setChild_ne (ch : List (String × Entry)) {c d : String}
    (e : Entry) (h : c ≠ d) :
    findChild (setChild ch c e) d = findChild ch d := by
  induction ch with
  | nil => simp [setChild, findChild, h]
  | cons p rest ih =>
    obtain ⟨n, x⟩ := p
    by_cases hn : n = c
    · subst hn
      simp [setChild, findChild, h, ih]
    · simp only [setChild, if_neg hn]
      by_cases hd : n = d <;> simp [findChild, hd, ih]

theorem findChild_delChild_self (ch : List (String × Entry)) (c : String) :
    findChild (delChild ch c) c = none := by
  induction ch with
  | nil => simp [delChild, findChild]
  | cons p rest ih =>
    obtain ⟨n, x⟩ := p
    by_cases h : n = c <;> simp [delChild, findChild, h, ih]

theorem findChild_delChild_ne (ch : List (String × Entry)) {c d : String}
    (h : c ≠ d) : findChild (delChild ch c) d = findChild ch d := by
  induction ch with
  | nil => simp [delChild, findChild]
  | cons p rest ih =>
    obtain ⟨n, x⟩ := p
    by_cases hn : n = c
    · subst hn
      simp [delChild, findChild, fun hh : n = d => h hh, ih]
    · simp only [delChild, if_neg hn]
      by_cases hd : n = d <;> simp [findChild, hd, ih]

theorem setChild_findChild_eq {ch : List (String × Entry)} {c : String}
    {e : Entry} (h : findChild ch c = some e) : setChild ch c e = ch := by
  induction ch with
  | nil => simp [findChild] at h
  | cons p rest ih =>
    obtain ⟨n, x⟩ := p
    by_cases hn : n = c
    · subst hn
      simp [findChild] at h
      simp [setChild, h]
    · simp [findChild, hn] at h
      simp [setChild, hn, ih h]

/-- `putAt` places the value at the target path. -/
theorem lookup_putAt_self {t : Entry} {p : List String} {v t2 : Entry}
    (h : putAt t p v = some t2) : lookup t2 p = some v := by
  induction p generalizing t t2 with
  | nil =>
    simp [putAt] at h
    subst h
    simp [lookup]
  | cons c rest ih =>
    cases t with
    | file d => simp [putAt] at h
    | dir ch =>
      cases rest with
      | nil =>
        simp [putAt] at h
        subst h
        simp [lookup, findChild_setChild_self]
      | cons c2 rest2 =>
        rw [putAt] at h
        cases hf : findChild ch c with
        | none => rw [hf] at h; simp at h
        | some e =>
          rw [hf] at h
          simp only [Option.map_eq_some'] at h
          obtain ⟨e2, h2, het⟩ := h
          subst het
          simp only [lookup, findChild_setChild_self]
          exact ih h2

/-- `putAt` leaves paths that are prefix-incomparable with the target
untouched. -/
theorem lookup_putAt_of_disjoint {t : Entry} {p : List String} {v t2 : Entry}
    (h : putAt t p v = some t2) {q : List String}
    (h1 : ¬ p <+: q) (h2 : ¬ q <+: p) : lookup t2 q = lookup t q := by
  induction p generalizing t t2 q with
  | nil => exact absurd (List.nil_prefix) h1
  | cons c rest ih =>
    cases q with
    | nil => exact absurd (List.nil_prefix) h2
    | cons d qrest =>
      cases t with
      | file fd => simp [putAt] at h
      | dir ch =>
        by_cases hcd : c = d
        · subst hcd
          rw [List.cons_prefix_cons] at h1 h2
          simp only [true_and] at h1 h2
          cases rest with
          | nil => exact absurd (List.nil_prefix) h1
          | cons c2 rest2 =>
            rw [putAt] at h
            cases hf : findChild ch c with
            | none => rw [hf] at h; simp at h
            | some e =>
              rw [hf] at h
              simp only [Option.map_eq_some'] at h
              obtain ⟨e2, hp2, het⟩ := h
              subst het
              simp only [lookup, findChild_setChild_self, hf]
              exact ih hp2 h1 h2
        · cases rest with
          | nil =>
            simp [putAt] at h
            subst h
            simp [lookup, findChild_setChild_ne ch v (fun hh => hcd hh)]
          | cons c2 rest2 =>
            rw [putAt] at h
            cases hf : findChild ch c with
            | none => rw [hf] at h; simp at h
            | some e =>
              rw [hf] at h
              simp only [Option.map_eq_some'] at h
              obtain ⟨e2, hp2, het⟩ := h
              subst het
              simp [lookup, findChild_setChild_ne ch e2 (fun hh => hcd hh)]

/-- `removeAt` erases the target path. -/
theorem lookup_removeAt_self {p : List String} (hp : p ≠ []) (t : Entry) :
    lookup (removeAt t p) p = none := by
  induction p generalizing t with
  | nil => exact absurd rfl hp
  | cons c rest ih =>
    cases t with
    | file d => cases rest <;> simp [removeAt, lookup]
    | dir ch =>
      cases rest with
      | nil => simp [removeAt, lookup, findChild_delChild_self]
      | cons c2 rest2 =>
        rw [removeAt]
        cases hf : findChild ch c with
        | none => simp [lookup, hf]
        | some e =>
          simp only [lookup, findChild_setChild_self]
          exact ih (by simp) e

/-- `removeAt` leaves paths that are prefix-incomparable with the target
untouched. -/
theorem lookup_removeAt_of_disjoint {p q : List String}
    (h1 : ¬ p <+: q) (h2 : ¬ q <+: p) (t : Entry) :
    lookup (removeAt t p) q = lookup t q := by
  induction p generalizing t q with
  | nil => exact absurd (List.nil_prefix) h1
  | cons c rest ih =>
    cases q with
    | nil => exact absurd (List.nil_prefix) h2
    | cons d qrest =>
      cases t with
      | file fd => cases rest <;> simp [removeAt]
      | dir ch =>
        by_cases hcd : c = d
        · subst hcd
          rw [List.cons_prefix_cons] at h1 h2
          simp only [true_and] at h1 h2
          cases rest with
          | nil => exact absurd (List.nil_prefix) h1
          | cons c2 rest2 =>
            rw [removeAt]
            cases hf : findChild ch c with
            | none => rfl
            | some e =>
              simp only [lookup, findChild_setChild_self, hf]
              exact ih h1 h2 e
        · cases rest with
          | nil =>
            simp [removeAt, lookup,
              findChild_delChild_ne ch (fun hh => hcd hh)]
          | cons c2 rest2 =>
            rw [removeAt]
            cases hf : findChild ch c with
            | none => rfl
            | some e =>
              simp [lookup, findChild_setChild_ne ch _ (fun hh => hcd hh)]

/-- A resolvable path has every proper prefix resolvable. -/
theorem lookup_isSome_of_prefix {t : Entry} {p q : List String}
    (hpre : q <+: p) (h : (lookup t p).isSome) : (lookup t q).isSome := by
  induction q generalizing p t with
  | nil => simp [lookup]
  | cons d qrest ih =>
    cases p with
    | nil => exact absurd (List.eq_nil_of_prefix_nil hpre) (by simp)
    | cons c rest =>
      rw [List.cons_prefix_cons] at hpre
      obtain ⟨rfl, hpre2⟩ := hpre
      cases t with
      | file fd => simp [lookup] at h
      | dir ch =>
        cases hf : findChild ch d with
        | none => rw [lookup, hf] at h; simp at h
        | some e =>
          rw [lookup, hf] at h ⊢
          exact ih hpre2 h

/-- The parent of a resolvable non-root path is a directory. -/
theorem isDir_lookup_dropLast {t : Entry} {p : List String} (hp : p ≠ [])
    {e : Entry} (h : lookup t p = some e) :
    isDirE (lookup t p.dropLast) = true := by
  induction p generalizing t with
  | nil => exact absurd rfl hp
  | cons c rest ih =>
    cases t with
    | file fd => simp [lookup] at h
    | dir ch =>
      cases rest with
      | nil => simp [lookup, isDirE]
      | cons c2 rest2 =>
        cases hf : findChild ch c with
        | none => rw [lookup, hf] at h; simp at h
        | some e1 =>
          rw [lookup, hf] at h
          have := ih (by simp) h
          simp only [List.dropLast_cons₂, lookup, hf]
          exact this

/-- `MkdirAll` is a no-op when the whole path already exists as
directories. -/
theorem mkdirAll_of_isDir {t : Entry} {p : List String}
    (h : isDirE (lookup t p) = true) : mkdirAll t p = some t := by
  induction p generalizing t with
  | nil =>
    cases t with
    | file d => simp [lookup, isDirE] at h
    | dir ch => rfl
  | cons c rest ih =>
    cases t with
    | file d => simp [lookup, isDirE] at h
    | dir ch =>
      cases hf : findChild ch c with
      | none => rw [lookup, hf] at h; simp [isDirE] at h
      | some e =>
        rw [lookup, hf] at h
        simp only at h
        simp only [mkdirAll, hf, ih h, Option.map_some']
        simp [setChild_findChild_eq hf]

/-- After a successful `MkdirAll` the target resolves to a directory. -/
theorem mkdirAll_self_isDir {t : Entry} {p : List String} {t2 : Entry}
    (h : mkdirAll t p = some t2) : isDirE (lookup t2 p) = true := by
  induction p generalizing t t2 with
  | nil =>
    cases t with
    | file d => simp [mkdirAll] at h
    | dir ch =>
      simp [mkdirAll] at h
      subst h
      simp [lookup, isDirE]
  | cons c rest ih =>
    cases t with
    | file d => simp [mkdirAll] at h
    | dir ch =>
      rw [mkdirAll] at h
      cases hf : findChild ch c with
      | none =>
        rw [hf] at h
        simp only [Option.map_eq_some'] at h
        obtain ⟨e2, h2, het⟩ := h
        subst het
        simp only [lookup, findChild_setChild_self]
        exact ih h2
      | some e =>
        rw [hf] at h
        simp only [Option.map_eq_some'] at h
        obtain ⟨e2, h2, het⟩ := h
        subst het
        simp only [lookup, findChild_setChild_self]
        exact ih h2

/-- `MkdirAll` never touches existing files. -/
theorem mkdirAll_preserves_file {t : Entry} {p : List String} {t2 : Entry}
    (h : mkdirAll t p = some t2) {q : List String} {d : List Nat}
    (hq : lookup t q = some (.file d)) : lookup t2 q = some (.file d) := by
  induction p generalizing t t2 q with
  | nil =>
    cases t with
    | file fd => simp [mkdirAll] at h
    | dir ch => simp [mkdirAll] at h; subst h; exact hq
  | cons c rest ih =>
    cases t with
    | file fd => simp [mkdirAll] at h
    | dir ch =>
      cases q with
      | nil => simp [lookup] at hq
      | cons q0 qrest =>
        rw [mkdirAll] at h
        by_cases hcd : c = q0
        · subst hcd
          cases hf : findChild ch c with
          | none => rw [lookup, hf] at hq; simp at hq
          | some e =>
            rw [hf] at h
            simp only [Option.map_eq_some'] at h
            obtain ⟨e2, h2, het⟩ := h
            subst het
            rw [lookup, hf] at hq
            simp only [lookup, findChild_setChild_self]
            exact ih h2 hq
        · cases hf : findChild ch c with
          | none =>
            rw [hf] at h
            simp only [Option.map_eq_some'] at h
            obtain ⟨e2, h2, het⟩ := h
            subst het
            rw [lookup, findChild_setChild_ne ch e2 hcd]
            exact hq
          | some e =>
            rw [hf] at h
            simp only [Option.map_eq_some'] at h
            obtain ⟨e2, h2, het⟩ := h
            subst het
            rw [lookup, findChild_setChild_ne ch e2 hcd]
            exact hq

/-- Creating directories from an empty directory resolves nothing outside
the created chain. -/
theorem mkdirAll_fresh_lookup {p : List String} {t2 : Entry}
    (h : mkdirAll (.dir []) p = some t2) {q : List String}
    (hq : ¬ q <+: p) : lookup t2 q = none := by
  induction p generalizing t2 q with
  | nil =>
    simp [mkdirAll] at h
    subst h
    cases q with
    | nil => exact absurd List.nil_prefix hq
    | cons d qrest => simp [lookup, findChild]
  | cons c rest ih =>
    rw [mkdirAll] at h
    simp only [findChild, Option.map_eq_some'] at h
    obtain ⟨e2, h2, het⟩ := h
    subst het
    cases q with
    | nil => exact absurd List.nil_prefix hq
    | cons d qrest =>
      by_cases hcd : c = d
      · subst hcd
        rw [List.cons_prefix_cons] at hq
        simp only [true_and] at hq
        simp only [lookup, setChild, findChild, if_pos rfl]
        exact ih h2 hq
      · simp [lookup, setChild, findChild, fun hh : c = d => hcd hh]

/-- Paths absent before `MkdirAll` and not on the created chain stay
absent. -/
theorem mkdirAll_preserves_none {t : Entry} {p : List String} {t2 : Entry}
    (h : mkdirAll t p = some t2) {q : List String}
    (hq : lookup t q = none) (hnp : ¬ q <+: p) : lookup t2 q = none := by
  induction p generalizing t t2 q with
  | nil =>
    cases t with
    | file fd => simp [mkdirAll] at h
    | dir ch => simp [mkdirAll] at h; subst h; exact hq
  | cons c rest ih =>
    cases t with
    | file fd => simp [mkdirAll] at h
    | dir ch =>
      cases q with
      | nil => simp [lookup] at hq
      | cons q0 qrest =>
        rw [mkdirAll] at h
        by_cases hcd : c = q0
        · subst hcd
          rw [List.cons_prefix_cons] at hnp
          simp only [true_and] at hnp
          cases hf : findChild ch c with
          | none =>
            rw [hf] at h
            simp only [Option.map_eq_some'] at h
            obtain ⟨e2, h2, het⟩ := h
            subst het
            simp only [lookup, findChild_setChild_self]
            exact mkdirAll_fresh_lookup h2 hnp
          | some e =>
            rw [hf] at h
            simp only [Option.map_eq_some'] at h
            obtain ⟨e2, h2, het⟩ := h
            subst het
            rw [lookup, hf] at hq
            simp only [lookup, findChild_setChild_self]
            exact ih h2 hq hnp
        · cases hf : findChild ch c with
          | none =>
            rw [hf] at h
            simp only [Option.map_eq_some'] at h
            obtain ⟨e2, h2, het⟩ := h
            subst het
            rw [lookup, findChild_setChild_ne ch e2 hcd]
            exact hq
          | some e =>
            rw [hf] at h
            simp only [Option.map_eq_some'] at h
            obtain ⟨e2, h2, het⟩ := h
            subst het
            rw [lookup, findChild_setChild_ne ch e2 hcd]
            exact hq

/-- A successful `MkdirAll` rules out files anywhere on the target chain. -/
theorem mkdirAll_some_no_file {t : Entry} {p : List String} {t2 : Entry}
    (h : mkdirAll t p = some t2) {q : List String} (hpre : q <+: p)
    {d : List Nat} (hq : lookup t q = some (.file d)) : False := by
  induction p generalizing t t2 q with
  | nil =>
    cases t with
    | file fd => simp [mkdirAll] at h
    | dir ch =>
      have := List.eq_nil_of_prefix_nil hpre
      subst this
      simp [lookup] at hq
  | cons c rest ih =>
    cases t with
    | file fd => simp [mkdirAll] at h
    | dir ch =>
      cases q with
      | nil => simp [lookup] at hq
      | cons q0 qrest =>
        rw [List.cons_prefix_cons] at hpre
        obtain ⟨rfl, hpre2⟩ := hpre
        rw [mkdirAll] at h
        cases hf : findChild ch q0 with
        | none => rw [lookup, hf] at hq; simp at hq
        | some e =>
          rw [hf] at h
          simp only [Option.map_eq_some'] at h
          obtain ⟨e2, h2, _⟩ := h
          rw [lookup, hf] at hq
          cases qrest with
          | nil =>
            simp [lookup] at hq
            subst hq
            cases rest with
            | nil => simp [mkdirAll] at h2
            | cons c2 rest2 => simp [mkdirAll] at h2
          | cons q1 qrest2 => exact ih h2 hpre2 hq

/-- `putAt` succeeds whenever the parent chain resolves to a directory. -/
theorem putAt_isSome_of_parent {t : Entry} {p : List String} (hp : p ≠ [])
    (hd : isDirE (lookup t p.dropLast) = true) (v : Entry) :
    (putAt t p v).isSome := by
  induction p generalizing t with
  | nil => exact absurd rfl hp
  | cons c rest ih =>
    cases t with
    | file fd =>
      cases rest with
      | nil => simp [lookup, isDirE] at hd
      | cons c2 rest2 =>
        rw [List.dropLast_cons₂] at hd
        simp [lookup, isDirE] at hd
    | dir ch =>
      cases rest with
      | nil => simp [putAt]
      | cons c2 rest2 =>
        rw [List.dropLast_cons₂] at hd
        cases hf : findChild ch c with
        | none => rw [lookup, hf] at hd; simp [isDirE] at hd
        | some e =>
          rw [lookup, hf] at hd
          rw [putAt, hf]
          have := ih (by simp) hd
          obtain ⟨e2, he2⟩ := Option.isSome_iff_exists.mp this
          simp [he2]

/-- After `putAt` the parent of the target is still a directory. -/
theorem putAt_parent_isDir {t : Entry} {p : List String} {v t2 : Entry}
    (hp : p ≠ []) (h : putAt t p v = some t2) :
    isDirE (lookup t2 p.dropLast) = true := by
  induction p generalizing t t2 with
  | nil => exact absurd rfl hp
  | cons c rest ih =>
    cases t with
    | file fd => simp [putAt] at h
    | dir ch =>
      cases rest with
      | nil =>
        simp [putAt] at h
        subst h
        simp [lookup, isDirE]
      | cons c2 rest2 =>
        rw [putAt] at h
        cases hf : findChild ch c with
        | none => rw [hf] at h; simp at h
        | some e =>
          rw [hf] at h
          simp only [Option.map_eq_some'] at h
          obtain ⟨e2, h2, het⟩ := h
          subst het
          rw [List.dropLast_cons₂]
          simp only [lookup, findChild_setChild_self]
          exact ih (by simp) h2

/-- Unfolding of a successful `writeFileAt`. -/
theorem writeFileAt_eq_putAt {t : Entry} {p : List String} {d : List Nat}
    {t2 : Entry} (h : writeFileAt t p d = some t2) :
    p ≠ [] ∧ putAt t p (.file d) = some t2 := by
  unfold writeFileAt at h
  split at h
  · simp at h
  · split at h
    · simp at h
    · split at h
      · simp at h
      · refine ⟨?_, h⟩
        intro hnil
        subst hnil
        simp_all

/-! ## Claim C1 -/

/-- **C1, counterexample.**  The claim as stated fails on the write side:
`".hid"` contains no denylisted pattern and its canonical form lies below the
root, yet `sanitizePathForWrite` rejects it (hidden final component), so the
success half of the claim does not hold for `ResolveForWrite`. -/
theorem C1_counterexample :
    hasDangerous ".hid" = false ∧
    hasPrefixStr (canonicalOf "/p" (cleanComponents (normalizeChars ".hid")))
      "/p" = true ∧
    sanitizePathForWrite "/p" ".hid" = .error "cannot create hidden files" :=
  ⟨by decide, by decide, by rfl⟩

/-- **C1 (amended).**  Every input containing a denylisted pattern is
rejected by both resolvers; every successful resolution returns a canonical
path prefixed by the canonical root; a denylist-free input resolves for read
whenever its canonical target exists and has no hidden component, and
resolves for write whenever it cleans to at least one component whose final
component is non-hidden and at most 255 bytes. -/
theorem C1_path_confinement (pub input : String) (root : Entry) :
    (hasDangerous input = true →
       (∃ e, sanitizePathForRead pub root input = .error e) ∧
       (∃ e, sanitizePathForWrite pub input = .error e)) ∧
    (∀ comps, sanitizePathForRead pub root input = .ok comps →
       hasPrefixStr (canonicalOf pub comps) pub = true) ∧
    (∀ comps, sanitizePathForWrite pub input = .ok comps →
       hasPrefixStr (canonicalOf pub comps) pub = true) ∧
    (hasDangerous input = false →
      (lookup root (cleanComponents (normalizeChars input))).isSome →
      (∀ c ∈ cleanComponents (normalizeChars input), startsDot c = false) →
      sanitizePathForRead pub root input =
        .ok (cleanComponents (normalizeChars input))) ∧
    (∀ fileName, hasDangerous input = false →
      (cleanComponents (normalizeChars input)).getLast? = some fileName →
      startsDot fileName = false → fileName.utf8ByteSize ≤ 255 →
      sanitizePathForWrite pub input =
        .ok (cleanComponents (normalizeChars input))) := by
  refine ⟨?_, ?_, ?_, ?_, ?_⟩
  · intro hd
    constructor
    · refine ⟨"dangerous pattern detected", ?_⟩
      unfold sanitizePathForRead
      rw [hd]
      simp
    · refine ⟨"dangerous pattern detected", ?_⟩
      unfold sanitizePathForWrite
      rw [hd]
      simp
  · intro comps _
    exact hasPrefixStr_canonicalOf pub comps
  · intro comps _
    exact hasPrefixStr_canonicalOf pub comps
  · intro hd hex hh
    exact sanitizePathForRead_ok pub input root hd hex hh
  · intro fileName hd hlast hh hlen
    exact sanitizePathForWrite_ok pub input hd hlast hh hlen

/-- **C1, witness.** -/
theorem C1_witness :
    (∃ e, sanitizePathForRead "/p" (Entry.dir []) "a/../b" = .error e) ∧
    sanitizePathForRead "/p" (Entry.dir [("a", Entry.file [])]) "a" =
      .ok (cleanComponents (normalizeChars "a")) ∧
    sanitizePathForWrite "/p" "d/f.txt" =
      .ok (cleanComponents (normalizeChars "d/f.txt")) :=
  ⟨((C1_path_confinement "/p" "a/../b" (Entry.dir [])).1 (by decide)).1,
   (C1_path_confinement "/p" "a"
      (Entry.dir [("a", Entry.file [])])).2.2.2.1 (by decide) (by decide)
      (by decide),
   (C1_path_confinement "/p" "d/f.txt" (Entry.dir [])).2.2.2.2 "f.txt"
      (by decide) (by decide) (by decide) (by decide)⟩

/-! ## Lemmas: write-path helpers -/

/-- A successful write-side resolution returns at least one component. -/
theorem sanitizePathForWrite_ne_nil {pub input : String} {comps : List String}
    (h : sanitizePathForWrite pub input = .ok comps) : comps ≠ [] := by
  simp only [sanitizePathForWrite] at h
  split at h
  · simp at h
  · split at h
    · simp at h
    · split at h
      · simp at h
      · rename_i fileName hlast
        split at h
        · simp at h
        · split at h
          · simp at h
          · split at h
            · simp at h
            · split at h
              · simp at h
              · simp only [Except.ok.injEq] at h
                subst h
                intro hnil
                rw [hnil] at hlast
                simp at hlast

/-- `writeFileAt` reduces to `putAt` when its guards pass. -/
theorem writeFileAt_eq_of (t : Entry) {comps : List String} (hne : comps ≠ [])
    (hpar : isDirE (lookup t comps.dropLast) = true)
    (htgt : isDirE (lookup t comps) = false) (d : List Nat) :
    writeFileAt t comps d = putAt t comps (.file d) := by
  unfold writeFileAt
  rw [if_neg (by simp [List.isEmpty_iff, hne]), if_neg (by simp [hpar]),
    if_neg (by simp [htgt])]

/-- `writeFileAt` fails when the target is an existing directory. -/
theorem writeFileAt_none_of_dir (t : Entry) {comps : List String}
    (htgt : isDirE (lookup t comps) = true) (d : List Nat) :
    writeFileAt t comps d = none := by
  unfold writeFileAt
  rw [htgt]
  simp

/-- No non-empty path is a prefix of its own `dropLast`. -/
theorem not_prefix_dropLast {p : List String} (hp : p ≠ []) :
    ¬ p <+: p.dropLast := by
  intro h
  have hlen := h.length_le
  rw [List.length_dropLast] at hlen
  have : 0 < p.length := List.length_pos.mpr hp
  omega

/-- A proper prefix of `p` is a prefix of `p.dropLast`. -/
theorem prefix_dropLast_of_proper {q p : List String} (h : q <+: p)
    (hne : q ≠ p) : q <+: p.dropLast := by
  obtain ⟨t, rfl⟩ := h
  cases t with
  | nil => simp at hne
  | cons b t2 =>
    rw [List.dropLast_append_cons]
    exact List.prefix_append q _

/-! ## Claim C3 -/

/-- **C3, counterexample.**  `CreateFile` on an existing regular file does
not fail with AlreadyExists: `os.WriteFile` truncates it, the call reports
success and emits `file_created`. -/
theorem C3_counterexample :
    (CreateFile "/p" (Entry.dir [("a", Entry.file [7])]) "a").res = .ok () ∧
    (CreateFile "/p" (Entry.dir [("a", Entry.file [7])]) "a").notifs =
      ["file_created"] ∧
    lookup (CreateFile "/p" (Entry.dir [("a", Entry.file [7])]) "a").fs ["a"] =
      some (.file []) :=
  ⟨rfl, rfl, rfl⟩

/-- **C3 (amended).**  When the target of a resolved write path already
exists: `CreateFolder` fails with the AlreadyExists error, leaves the tree
unchanged and emits nothing; `CreateFile` on an existing regular file
truncates it to empty, reports success and emits `file_created`; `CreateFile`
on an existing directory fails (with a generic write error, not
AlreadyExists), leaves the tree unchanged and emits nothing. -/
theorem C3_create_on_existing (pub : String) (root : Entry) (path : String)
    (comps : List String) (e : Entry)
    (hs : sanitizePathForWrite pub path = .ok comps)
    (hex : lookup root comps = some e) :
    CreateFolder pub root path =
      ⟨root, .error "Directory already exists", []⟩ ∧
    (isFileE e = true →
      (CreateFile pub root path).res = .ok () ∧
      (CreateFile pub root path).notifs = ["file_created"] ∧
      lookup (CreateFile pub root path).fs comps = some (.file [])) ∧
    (isFileE e = false →
      CreateFile pub root path = ⟨root, .error "Failed to create file", []⟩) := by
  have hne := sanitizePathForWrite_ne_nil hs
  have hdl := isDir_lookup_dropLast hne hex
  have hmk : mkdirAll root comps.dropLast = some root := mkdirAll_of_isDir hdl
  refine ⟨?_, ?_, ?_⟩
  · simp only [CreateFolder, hs, hmk, hex]
  · intro hf
    obtain ⟨d, rfl⟩ : ∃ d, e = .file d := by
      cases e with
      | file d => exact ⟨d, rfl⟩
      | dir ch => simp [isFileE] at hf
    have htgt : isDirE (lookup root comps) = false := by
      rw [hex]; rfl
    have hweq := writeFileAt_eq_of root hne hdl htgt []
    obtain ⟨r2, hr2⟩ := Option.isSome_iff_exists.mp
      (putAt_isSome_of_parent hne hdl (.file []))
    refine ⟨?_, ?_, ?_⟩ <;>
      simp only [CreateFile, hs, hmk, hweq, hr2, lookup_putAt_self hr2]
  · intro hf
    have htgt : isDirE (lookup root comps) = true := by
      cases e with
      | file d => simp [isFileE] at hf
      | dir ch => rw [hex]; rfl
    simp only [CreateFile, hs, hmk, writeFileAt_none_of_dir root htgt]

/-- **C3, witness.** -/
theorem C3_witness :
    CreateFolder "/p" (Entry.dir [("a", Entry.file [7])]) "a" =
      ⟨Entry.dir [("a", Entry.file [7])], .error "Directory already exists",
        []⟩ ∧
    (CreateFile "/p" (Entry.dir [("a", Entry.file [7])]) "a").res = .ok () :=
  ⟨(C3_create_on_existing "/p" (Entry.dir [("a", Entry.file [7])]) "a" ["a"]
      (Entry.file [7]) rfl rfl).1,
   ((C3_create_on_existing "/p" (Entry.dir [("a", Entry.file [7])]) "a" ["a"]
      (Entry.file [7]) rfl rfl).2.1 rfl).1⟩

/-! ## Claim C4 -/

/-- Closed form of the upload read/write loop: it aborts iff the running
total ever exceeds the cap, which happens iff the final total does. -/
theorem uploadLoop_eq (chunks : List (List Nat)) (total : Nat)
    (content : List Nat) (ht : total ≤ maxTotalSize) :
    uploadLoop chunks total content =
      if maxTotalSize < total + (chunks.map List.length).sum then none
      else some (content ++ chunks.flatten,
        total + (chunks.map List.length).sum) := by
  induction chunks generalizing total content with
  | nil => simp [uploadLoop, Nat.not_lt.mpr ht]
  | cons c rest ih =>
    rw [uploadLoop]
    by_cases hc : c.length = 0
    · have hce : c = [] := List.length_eq_zero.mp hc
      subst hce
      rw [if_pos hc, ih total content ht]
      simp
    · rw [if_neg hc]
      by_cases hover : maxTotalSize < total + c.length
      · rw [if_pos hover,
          if_pos (by simp only [List.map_cons, List.sum_cons]; omega)]
      · rw [if_neg hover, ih (total + c.length) (content ++ c) (by omega)]
        simp only [List.map_cons, List.sum_cons, List.flatten_cons,
          ← Nat.add_assoc, ← List.append_assoc]

/-- **C4.**  Once the upload path has resolved and the target file is
created, a chunk stream whose cumulative size exceeds the 1 TiB cap (by as
little as one byte) aborts with the size-limit error, the partial file is
deleted (the target no longer resolves) and nothing is notified; a stream
within the cap writes all bytes (the file holds the concatenation of the
chunks) and emits exactly one `file_created` notification. -/
theorem C4_upload_cap (pub : String) (root : Entry) (path : String)
    (chunks : List (List Nat)) (comps : List String) (r1 r2 : Entry)
    (hs : sanitizePathForWrite pub path = .ok comps)
    (hm : mkdirAll root comps.dropLast = some r1)
    (hc : writeFileAt r1 comps [] = some r2) :
    (maxTotalSize < (chunks.map List.length).sum →
       UploadFile pub root path chunks =
         ⟨removeAt r2 comps, .error "File size exceeds maximum limit", []⟩ ∧
       lookup (removeAt r2 comps) comps = none) ∧
    ((chunks.map List.length).sum ≤ maxTotalSize →
       ∃ r3, UploadFile pub root path chunks =
           ⟨r3, .ok ((chunks.map List.length).sum), ["file_created"]⟩ ∧
         lookup r3 comps = some (.file chunks.flatten)) := by
  have hne := sanitizePathForWrite_ne_nil hs
  constructor
  · intro hov
    have hu : uploadLoop chunks 0 [] = none := by
      rw [uploadLoop_eq chunks 0 [] (Nat.zero_le _), if_pos (by omega)]
    refine ⟨?_, lookup_removeAt_self hne r2⟩
    simp only [UploadFile, hs, hm, hc, hu]
  · intro hle
    have hu : uploadLoop chunks 0 [] =
        some (chunks.flatten, (chunks.map List.length).sum) := by
      rw [uploadLoop_eq chunks 0 [] (Nat.zero_le _), if_neg (by omega)]
      simp
    obtain ⟨hne2, hput⟩ := writeFileAt_eq_putAt hc
    have hpar2 : isDirE (lookup r2 comps.dropLast) = true :=
      putAt_parent_isDir hne hput
    have htgt2 : lookup r2 comps = some (.file []) := lookup_putAt_self hput
    have hw2eq : writeFileAt r2 comps chunks.flatten =
        putAt r2 comps (.file chunks.flatten) :=
      writeFileAt_eq_of r2 hne hpar2 (by rw [htgt2]; rfl) _
    obtain ⟨r3, hr3⟩ := Option.isSome_iff_exists.mp
      (putAt_isSome_of_parent hne hpar2 (.file chunks.flatten))
    refine ⟨r3, ?_, lookup_putAt_self hr3⟩
    simp only [UploadFile, hs, hm, hc, hu, hw2eq, hr3]

/-- **C4, witness.** -/
theorem C4_witness :
    ∃ r3, UploadFile "/p" (Entry.dir []) "f" [[1, 2, 3]] =
        ⟨r3, .ok (([[1, 2, 3]].map List.length).sum), ["file_created"]⟩ ∧
      lookup r3 ["f"] = some (.file ([[1, 2, 3]] : List (List Nat)).flatten) :=
  (C4_upload_cap "/p" (Entry.dir []) "f" [[1, 2, 3]] ["f"] (Entry.dir [])
    (Entry.dir [("f", Entry.file [])]) rfl rfl rfl).2 (by decide)

/-! ## Lemmas: int32 arithmetic and pagination -/

theorem toInt32_eq_self {n : Int} (h1 : -(2 ^ 31) ≤ n) (h2 : n < 2 ^ 31) :
    toInt32 n = n := by
  unfold toInt32
  rw [Int.emod_eq_of_lt (by omega) (by omega)]
  omega

theorem toInt32_bounds (n : Int) :
    -(2 ^ 31) ≤ toInt32 n ∧ toInt32 n < 2 ^ 31 := by
  unfold toInt32
  have ha := Int.emod_nonneg (n + 2 ^ 31) (b := 2 ^ 32) (by norm_num)
  have hb := Int.emod_lt_of_pos (n + 2 ^ 31) (b := 2 ^ 32) (by norm_num)
  omega

theorem clampPage_ge_one (pageVal : Int) : 1 ≤ clampPage pageVal := by
  unfold clampPage
  split <;> omega

theorem clampPage_lt (pageVal : Int) : clampPage pageVal < 2 ^ 31 := by
  unfold clampPage
  have := toInt32_bounds pageVal
  split <;> omega

theorem clampLimit_bounds (maxLimit limitVal : Int) (hm : 10 ≤ maxLimit) :
    10 ≤ clampLimit maxLimit limitVal ∧
    clampLimit maxLimit limitVal ≤ maxLimit := by
  unfold clampLimit
  have := toInt32_bounds limitVal
  split
  · omega
  · split <;> omega

/-- Evaluation lemma for `paginateCore` in the in-range branch, used to
evaluate it on lists given only their length. -/
theorem paginateCore_eq_pos {α : Type} (items : List α)
    (pageVal limitVal maxLimit p l n : Int) (sliced : List α)
    (hp : clampPage pageVal = p) (hl : clampLimit maxLimit limitVal = l)
    (hn : ((items.length : Int)) = n) (hcase : toInt32 ((p - 1) * l) < n)
    (hsl : goSlice items (toInt32 ((p - 1) * l))
        (if toInt32 (toInt32 ((p - 1) * l) + l) > toInt32 n then toInt32 n
         else toInt32 (toInt32 ((p - 1) * l) + l)) = some sliced) :
    paginateCore maxLimit items pageVal limitVal =
      some ⟨sliced, toInt32 n, p, l,
        Int.tdiv (toInt32 (toInt32 (toInt32 n + l) - 1)) l,
        decide (p < Int.tdiv (toInt32 (toInt32 (toInt32 n + l) - 1)) l),
        decide (p > 1)⟩ := by
  simp only [paginateCore]
  rw [hp, hl, hn, if_pos hcase, hsl]

/-- **C2, counterexample.**  A successful `List`-style pagination over
`2^31 - 1` items (`page = 1`, `limit = 10`) returns a *negative*
`totalPages`: the `int32` expression `total + limit - 1` wraps, so
`totalPages` is not `ceil(total/limit)` — its lower-bound characterization
`total ≤ totalPages * limit` fails on the returned record. -/
theorem C2_counterexample :
    ∃ r, paginateCore 100 (List.replicate 2147483647 ()) 1 10 = some r ∧
      ¬ (r.total ≤ r.totalPages * r.limit) := by
  refine ⟨⟨List.replicate 10 (), 2147483647, 1, 10, -214748364, false, false⟩,
    ?_, by decide⟩
  have hn : ((List.replicate 2147483647 ()).length : Int) = 2147483647 := by
    rw [List.length_replicate]
    norm_num
  have hsl : goSlice (List.replicate 2147483647 ()) (toInt32 ((1 - 1) * 10))
      (if toInt32 (toInt32 ((1 - 1) * 10) + 10) > toInt32 2147483647
       then toInt32 2147483647
       else toInt32 (toInt32 ((1 - 1) * 10) + 10)) =
      some (List.replicate 10 ()) := by
    have hx : toInt32 ((1 - 1) * 10) = 0 := by decide
    have hy : (if toInt32 (toInt32 ((1 - 1) * 10) + 10) > toInt32 2147483647
        then toInt32 2147483647
        else toInt32 (toInt32 ((1 - 1) * 10) + 10)) = 10 := by decide
    rw [hy, hx]
    unfold goSlice
    rw [hn, if_neg (by norm_num)]
    rw [show ((0 : Int)).toNat = 0 from rfl,
      show ((10 : Int) - 0).toNat = 10 by decide,
      List.drop_zero, List.take_replicate]
    norm_num
  rw [paginateCore_eq_pos (List.replicate 2147483647 ()) 1 10 100 1 10
    2147483647 (List.replicate 10 ()) (by decide) (by decide) hn (by decide)
    hsl]
  decide

/-- **C2 (amended).**  Whenever the `int32` pagination arithmetic does not
overflow — the item count plus the clamped limit stays below `2^31` and the
clamped `page * limit` stays below `2^31` — pagination succeeds (no slice
panic) and the result satisfies all the claimed invariants: clamped `page`
and `limit`, exact `total`, `totalPages = ceil(total/limit)` (stated by its
characterization), the `hasNext`/`hasPrev` formulas, the returned item count
formula, and `items` being the claimed slice of the full list. -/
theorem C2_pagination_invariants {α : Type} (items : List α)
    (pageVal limitVal maxLimit : Int) (hm10 : 10 ≤ maxLimit)
    (hlen : (items.length : Int) + clampLimit maxLimit limitVal < 2 ^ 31)
    (hpl : clampPage pageVal * clampLimit maxLimit limitVal < 2 ^ 31) :
    ∃ r, paginateCore maxLimit items pageVal limitVal = some r ∧
      r.page = clampPage pageVal ∧ 1 ≤ r.page ∧
      r.limit = clampLimit maxLimit limitVal ∧
      10 ≤ r.limit ∧ r.limit ≤ maxLimit ∧
      r.total = (items.length : Int) ∧
      (r.totalPages - 1) * r.limit < r.total ∧
      r.total ≤ r.totalPages * r.limit ∧
      r.hasNext = decide (r.page < r.totalPages) ∧
      r.hasPrev = decide (1 < r.page) ∧
      (r.items.length : Int) =
        min r.limit (max 0 (r.total - (r.page - 1) * r.limit)) ∧
      r.items = (items.drop ((r.page - 1) * r.limit).toNat).take
        (min r.total (r.page * r.limit) - (r.page - 1) * r.limit).toNat := by
  set p := clampPage pageVal with hp
  set l := clampLimit maxLimit limitVal with hl
  have hp1 : 1 ≤ p := clampPage_ge_one pageVal
  have hp31 : p < 2 ^ 31 := clampPage_lt pageVal
  obtain ⟨hl10, hlmax⟩ := clampLimit_bounds maxLimit limitVal hm10
  have hn0 : 0 ≤ (items.length : Int) := Int.ofNat_nonneg _
  set n := (items.length : Int) with hn
  have e_total : toInt32 n = n := toInt32_eq_self (by omega) (by omega)
  have e_nl : toInt32 (n + l) = n + l := toInt32_eq_self (by omega) (by omega)
  have e_nl1 : toInt32 (n + l - 1) = n + l - 1 :=
    toInt32_eq_self (by omega) (by omega)
  have hstart0 : 0 ≤ (p - 1) * l := mul_nonneg (by omega) (by omega)
  have hpl0 : 0 ≤ p * l := mul_nonneg (by omega) (by omega)
  have hpl2 : (p - 1) * l + l = p * l := by ring
  have e_start : toInt32 ((p - 1) * l) = (p - 1) * l :=
    toInt32_eq_self (by omega) (by omega)
  have e_e0 : toInt32 ((p - 1) * l + l) = p * l := by
    rw [hpl2]
    exact toInt32_eq_self (by omega) (by omega)
  have hdiv : Int.tdiv (n + l - 1) l = (n + l - 1) / l :=
    Int.tdiv_eq_ediv (by omega) (by omega)
  set q := (n + l - 1) / l with hqdef
  have hmod := Int.ediv_add_emod (n + l - 1) l
  have hmn := Int.emod_nonneg (n + l - 1) (show l ≠ 0 by omega)
  have hml := Int.emod_lt_of_pos (n + l - 1) (show 0 < l by omega)
  have hql : q * l = n + l - 1 - (n + l - 1) % l := by
    have hc : l * q = q * l := mul_comm l q
    rw [← hqdef] at hmod
    linarith
  have htp1 : n ≤ q * l := by linarith
  have htp2 : (q - 1) * l < n := by
    have hqe : (q - 1) * l = q * l - l := by ring
    linarith
  simp only [paginateCore]
  rw [← hp, ← hl, ← hn, e_total, e_start, e_e0, e_nl, e_nl1, hdiv]
  have hendv : (if p * l > n then n else p * l) = min n (p * l) := by
    split <;> omega
  rw [hendv]
  by_cases hcase : (p - 1) * l < n
  · rw [if_pos hcase]
    have hslice : goSlice items ((p - 1) * l) (min n (p * l)) =
        some ((items.drop ((p - 1) * l).toNat).take
          (min n (p * l) - (p - 1) * l).toNat) := by
      unfold goSlice
      rw [if_neg]
      push_neg
      refine ⟨by omega, by omega, by omega⟩
    rw [hslice]
    refine ⟨_, rfl, rfl, hp1, rfl, hl10, hlmax, rfl, htp2, htp1, rfl, rfl,
      ?_, rfl⟩
    show (((items.drop ((p - 1) * l).toNat).take
        (min n (p * l) - (p - 1) * l).toNat).length : Int) =
      min l (max 0 (n - (p - 1) * l))
    simp only [List.length_take, List.length_drop]
    omega
  · rw [if_neg hcase]
    refine ⟨_, rfl, rfl, hp1, rfl, hl10, hlmax, rfl, htp2, htp1, rfl, rfl,
      ?_, ?_⟩
    · show ((([] : List α)).length : Int) =
        min l (max 0 (n - (p - 1) * l))
      simp only [List.length_nil]
      omega
    · show ([] : List α) = (items.drop ((p - 1) * l).toNat).take
        (min n (p * l) - (p - 1) * l).toNat
      rw [List.drop_eq_nil_of_le (by omega), List.take_nil]

/-- **C2, witness.** -/
theorem C2_witness :
    ∃ r, paginateCore 100 (["a", "b"] : List String) 1 10 = some r ∧
      r.page = clampPage 1 ∧ 1 ≤ r.page ∧
      r.limit = clampLimit 100 10 ∧
      10 ≤ r.limit ∧ r.limit ≤ 100 ∧
      r.total = (((["a", "b"] : List String)).length : Int) ∧
      (r.totalPages - 1) * r.limit < r.total ∧
      r.total ≤ r.totalPages * r.limit ∧
      r.hasNext = decide (r.page < r.totalPages) ∧
      r.hasPrev = decide (1 < r.page) ∧
      (r.items.length : Int) =
        min r.limit (max 0 (r.total - (r.page - 1) * r.limit)) ∧
      r.items = (((["a", "b"] : List String)).drop
          ((r.page - 1) * r.limit).toNat).take
        (min r.total (r.page * r.limit) - (r.page - 1) * r.limit).toNat :=
  C2_pagination_invariants ["a", "b"] 1 10 100 (by decide) (by decide)
    (by decide)

/-! ## Claim C6 -/

/-- **C6.**  `RenameFile` fails (tree unchanged, nothing notified) when the
source is missing or the destination exists; when it reports success the old
path no longer resolves, the new path resolves to the prior entry of the old
path, and exactly one `file_renamed` notification is emitted. -/
theorem C6_rename_atomicity (pub : String) (root : Entry) (a b : String)
    (oldC newC : List String)
    (hsa : sanitizePathForWrite pub a = .ok oldC)
    (hsb : sanitizePathForWrite pub b = .ok newC) :
    (lookup root oldC = none →
       RenameFile pub root a b =
         ⟨root, .error "Source file does not exist", []⟩) ∧
    (∀ es ed, lookup root oldC = some es → lookup root newC = some ed →
       RenameFile pub root a b =
         ⟨root, .error "Destination file already exists", []⟩) ∧
    ((RenameFile pub root a b).res = .ok () →
       lookup (RenameFile pub root a b).fs oldC = none ∧
       (∃ src, lookup root oldC = some src ∧
          lookup (RenameFile pub root a b).fs newC = some src) ∧
       (RenameFile pub root a b).notifs = ["file_renamed"]) := by
  have holdne := sanitizePathForWrite_ne_nil hsa
  refine ⟨?_, ?_, ?_⟩
  · intro hl
    simp only [RenameFile, hsa, hsb, hl]
  · intro es ed hl hl2
    simp only [RenameFile, hsa, hsb, hl, hl2]
  · intro hok
    cases hl : lookup root oldC with
    | none =>
      simp only [RenameFile, hsa, hsb, hl] at hok
      exact Except.noConfusion hok
    | some src =>
      cases hl2 : lookup root newC with
      | some ed =>
        simp only [RenameFile, hsa, hsb, hl, hl2] at hok
        exact Except.noConfusion hok
      | none =>
        cases hro : renameOp root oldC newC with
        | none =>
          simp only [RenameFile, hsa, hsb, hl, hl2, hro] at hok
          exact Except.noConfusion hok
        | some r =>
          have hre : RenameFile pub root a b = ⟨r, .ok (), ["file_renamed"]⟩ := by
            simp only [RenameFile, hsa, hsb, hl, hl2, hro]
          unfold renameOp at hro
          split at hro
          · simp at hro
          · rename_i hpref
            rw [hl] at hro
            split at hro
            · simp at hro
            · rename_i e2 heq2
              obtain rfl : e2 = src := by
                injection heq2 with h
                exact h.symm
              split at hro
              · simp at hro
              have hp1 : ¬ oldC <+: newC := by
                rw [← List.isPrefixOf_iff_prefix]
                simpa using hpref
              have hp2 : ¬ newC <+: oldC := by
                intro hpre
                have := lookup_isSome_of_prefix hpre (by rw [hl]; rfl)
                rw [hl2] at this
                simp at this
              refine ⟨?_, ⟨e2, rfl, ?_⟩, ?_⟩
              · rw [hre]
                show lookup r oldC = none
                rw [lookup_putAt_of_disjoint hro hp2 hp1]
                exact lookup_removeAt_self holdne root
              · rw [hre]
                exact lookup_putAt_self hro
              · rw [hre]

/-- **C6, witness.** -/
theorem C6_witness :
    lookup (RenameFile "/p" (Entry.dir [("a", Entry.file [5])]) "a" "b").fs
      ["a"] = none ∧
    (∃ src, lookup (Entry.dir [("a", Entry.file [5])]) ["a"] = some src ∧
       lookup (RenameFile "/p" (Entry.dir [("a", Entry.file [5])]) "a" "b").fs
         ["b"] = some src) ∧
    (RenameFile "/p" (Entry.dir [("a", Entry.file [5])]) "a" "b").notifs =
      ["file_renamed"] :=
  (C6_rename_atomicity "/p" (Entry.dir [("a", Entry.file [5])]) "a" "b"
    ["a"] ["b"] rfl rfl).2.2 rfl

/-! ## Claim C7 -/

/-- **C7, counterexample.**  The success half of the claim fails when the
(pattern-free, resolvable) destination's parent chain is blocked by an
existing file: source `"a"` exists as a file and destination `"a/x"` does
not exist, yet `CopyFile` fails. -/
theorem C7_counterexample :
    lookup (Entry.dir [("a", Entry.file [1])]) ["a"] =
      some (Entry.file [1]) ∧
    lookup (Entry.dir [("a", Entry.file [1])]) ["a", "x"] = none ∧
    (CopyFile "/p" (Entry.dir [("a", Entry.file [1])]) "a" "a/x").res =
      .error "Failed to copy file" :=
  ⟨rfl, rfl, rfl⟩

/-- **C7 (amended).**  `CopyFile` fails (tree unchanged, nothing notified)
when the source is missing or the destination exists.  For an existing
regular-file source and a missing destination whose parent chain can be
created (no existing file blocks it), the copy succeeds, reports the number
of bytes copied, and afterwards the destination resolves to a byte-identical
file while the source is unchanged. -/
theorem C7_copy_roundtrip (pub : String) (root : Entry) (a b : String)
    (srcC dstC : List String)
    (hsa : sanitizePathForWrite pub a = .ok srcC)
    (hsb : sanitizePathForWrite pub b = .ok dstC) :
    (lookup root srcC = none →
       CopyFile pub root a b =
         ⟨root, .error "Source file does not exist", []⟩) ∧
    (∀ es ed, lookup root srcC = some es → lookup root dstC = some ed →
       CopyFile pub root a b =
         ⟨root, .error "Destination file already exists", []⟩) ∧
    (∀ data r1, lookup root srcC = some (.file data) →
       lookup root dstC = none →
       mkdirAll root dstC.dropLast = some r1 →
       ∃ r2, CopyFile pub root a b = ⟨r2, .ok data.length, ["file_copied"]⟩ ∧
         lookup r2 dstC = some (.file data) ∧
         lookup r2 srcC = some (.file data)) := by
  have hdstne := sanitizePathForWrite_ne_nil hsb
  refine ⟨?_, ?_, ?_⟩
  · intro hl
    simp only [CopyFile, hsa, hsb, hl]
  · intro es ed hl hl2
    simp only [CopyFile, hsa, hsb, hl, hl2]
  · intro data r1 hsrc hdst hm
    have hsrc1 : lookup r1 srcC = some (.file data) :=
      mkdirAll_preserves_file hm hsrc
    have hp2 : ¬ dstC <+: srcC := by
      intro hpre
      have := lookup_isSome_of_prefix hpre (by rw [hsrc]; rfl)
      rw [hdst] at this
      simp at this
    have hp1 : ¬ srcC <+: dstC := by
      intro hpre
      by_cases heq : srcC = dstC
      · rw [heq, hdst] at hsrc
        simp at hsrc
      · exact mkdirAll_some_no_file hm
          (prefix_dropLast_of_proper hpre heq) hsrc
    have hdst1 : lookup r1 dstC = none :=
      mkdirAll_preserves_none hm hdst (not_prefix_dropLast hdstne)
    have hweq : writeFileAt r1 dstC data = putAt r1 dstC (.file data) :=
      writeFileAt_eq_of r1 hdstne (mkdirAll_self_isDir hm)
        (by rw [hdst1]; rfl) data
    obtain ⟨r2, hr2⟩ := Option.isSome_iff_exists.mp
      (putAt_isSome_of_parent hdstne (mkdirAll_self_isDir hm) (.file data))
    refine ⟨r2, ?_, lookup_putAt_self hr2, ?_⟩
    · simp only [CopyFile, hsa, hsb, hsrc, hdst, hm, Option.getD_some,
        hsrc1, hweq, hr2]
    · rw [lookup_putAt_of_disjoint hr2 hp2 hp1]
      exact hsrc1

/-- **C7, witness.** -/
theorem C7_witness :
    ∃ r2, CopyFile "/p" (Entry.dir [("a", Entry.file [5, 6])]) "a" "d/b" =
        ⟨r2, .ok ([5, 6] : List Nat).length, ["file_copied"]⟩ ∧
      lookup r2 ["d", "b"] = some (.file [5, 6]) ∧
      lookup r2 ["a"] = some (.file [5, 6]) :=
  (C7_copy_roundtrip "/p" (Entry.dir [("a", Entry.file [5, 6])]) "a" "d/b"
    ["a"] ["d", "b"] rfl rfl).2.2 [5, 6]
    (Entry.dir [("a", Entry.file [5, 6]), ("d", Entry.dir [])]) rfl rfl rfl

/-! ## Lemmas: the listing comparator and sorting -/

theorem goLess_asymm {a b : Item} (h : goLess a b = true) :
    goLess b a = false := by
  unfold goLess at h ⊢
  cases ha : a.isDir <;> cases hb : b.isDir <;>
    simp [ha, hb] at h ⊢
  · exact le_of_lt h
  · exact le_of_lt h

instance : IsTotal Item itemLE where
  total a b := by
    unfold itemLE
    by_cases h : goLess b a = true
    · right
      exact goLess_asymm h
    · left
      exact Bool.eq_false_iff.mpr h

instance : IsTrans Item itemLE where
  trans a b c hab hbc := by
    unfold itemLE at hab hbc ⊢
    cases ha : a.isDir <;> cases hb : b.isDir <;> cases hc : c.isDir <;>
      simp [goLess, ha, hb, hc] at hab hbc ⊢ <;>
      exact le_trans hab hbc

/-- The full listing is sorted by the `sort.Slice` comparator. -/
theorem listFull_sorted (comps : List String) (ch : List (String × Entry)) :
    List.Sorted itemLE (listFull comps ch) :=
  List.sorted_insertionSort itemLE _

/-- The full listing is, as a multiset, exactly the non-hidden entries of the
directory turned into items. -/
theorem listFull_perm (comps : List String) (ch : List (String × Entry)) :
    (listFull comps ch).Perm (ch.filterMap fun p =>
      if startsDot p.1 then none else some (mkListItem comps p.1 p.2)) := by
  unfold listFull buildListItems sortPairs
  exact (List.perm_insertionSort itemLE _).trans
    ((List.perm_insertionSort _ ch).filterMap _)

theorem sanitizeRead_empty (pub : String) (root : Entry) :
    sanitizePathForRead pub root "" = .ok [] := rfl

theorem sanitizeRead_slash (pub : String) (root : Entry) :
    sanitizePathForRead pub root "/" = .ok [] := rfl

theorem sanitizeRead_star (pub : String) (root : Entry) :
    sanitizePathForRead pub root "*" = .error "dangerous pattern detected" :=
  rfl

/-! ## Claim C5 -/

/-- **C5.**  `ListItems` treats empty, `"/"` and `"*"` as the root; fails
with the not-found error when the resolved directory does not exist and with
the not-a-directory error when it is a file; and for an existing directory
returns the pagination of the full listing, which is a permutation of the
non-hidden immediate entries sorted directories-first then case-insensitively
by name. -/
theorem C5_list_semantics (pub : String) (root : Entry) (path : String)
    (pageVal limitVal : Int) :
    (ListItems pub root "" pageVal limitVal =
        listItemsAt root [] pageVal limitVal ∧
     ListItems pub root "/" pageVal limitVal =
        listItemsAt root [] pageVal limitVal ∧
     ListItems pub root "*" pageVal limitVal =
        listItemsAt root [] pageVal limitVal) ∧
    (hasDangerous path = false → (normalizeChars path).isEmpty = false →
      lookup root (cleanComponents (normalizeChars path)) = none →
      ListItems pub root path pageVal limitVal =
        .error "directory does not exist") ∧
    (∀ comps d, sanitizePathForRead pub root path = .ok comps →
      lookup root comps = some (.file d) →
      ListItems pub root path pageVal limitVal =
        .error "Path is not a directory") ∧
    (∀ comps ch, sanitizePathForRead pub root path = .ok comps →
      lookup root comps = some (.dir ch) →
      ListItems pub root path pageVal limitVal =
        (match paginateCore 100 (listFull comps ch) pageVal limitVal with
         | none => .error "runtime error: slice bounds out of range"
         | some r => .ok r) ∧
      (listFull comps ch).Perm (ch.filterMap fun p =>
        if startsDot p.1 then none else some (mkListItem comps p.1 p.2)) ∧
      List.Sorted itemLE (listFull comps ch)) := by
  refine ⟨⟨rfl, rfl, rfl⟩, ?_, ?_, ?_⟩
  · intro hd hne hl
    have hpath_ne : ¬(path = "" ∨ path = "/" ∨ path = "*") := by
      rintro (rfl | rfl | rfl)
      · exact absurd hne (by decide)
      · exact absurd hne (by decide)
      · exact absurd hd (by decide)
    rw [ListItems, if_neg hpath_ne]
    have hs : sanitizePathForRead pub root path =
        .error "directory does not exist" := by
      unfold sanitizePathForRead
      rw [hd]
      simp only [Bool.false_eq_true, if_false]
      rw [hne]
      simp only [Bool.false_eq_true, if_false]
      rw [hasPrefixStr_canonicalOf]
      simp only [reduceCtorEq, if_false]
      rw [hl]
    simp only [listItemsImpl, hs]
  · intro comps d hs hl
    by_cases halias : path = "" ∨ path = "/" ∨ path = "*"
    · have he : ListItems pub root path pageVal limitVal =
          listItemsAt root [] pageVal limitVal := by
        rw [ListItems, if_pos halias]
        rfl
      have hc0 : comps = [] := by
        rcases halias with rfl | rfl | rfl
        · rw [sanitizeRead_empty] at hs
          injection hs with h
          exact h.symm
        · rw [sanitizeRead_slash] at hs
          injection hs with h
          exact h.symm
        · rw [sanitizeRead_star] at hs
          exact Except.noConfusion hs
      subst hc0
      rw [he]
      simp only [listItemsAt, hl]
    · rw [ListItems, if_neg halias]
      simp only [listItemsImpl, hs, listItemsAt, hl]
  · intro comps ch hs hl
    refine ⟨?_, listFull_perm comps ch, listFull_sorted comps ch⟩
    by_cases halias : path = "" ∨ path = "/" ∨ path = "*"
    · have he : ListItems pub root path pageVal limitVal =
          listItemsAt root [] pageVal limitVal := by
        rw [ListItems, if_pos halias]
        rfl
      have hc0 : comps = [] := by
        rcases halias with rfl | rfl | rfl
        · rw [sanitizeRead_empty] at hs
          injection hs with h
          exact h.symm
        · rw [sanitizeRead_slash] at hs
          injection hs with h
          exact h.symm
        · rw [sanitizeRead_star] at hs
          exact Except.noConfusion hs
      subst hc0
      rw [he]
      simp only [listItemsAt, hl]
    · rw [ListItems, if_neg halias]
      simp only [listItemsImpl, hs, listItemsAt, hl]

/-- **C5, witness.** -/
theorem C5_witness :
    ListItems "/p" (Entry.dir [("b", Entry.file [1]), ("A", Entry.dir [])])
        "missing" 1 10 = .error "directory does not exist" ∧
    ListItems "/p" (Entry.dir [("b", Entry.file [1]), ("A", Entry.dir [])])
        "" 1 10 =
      (match paginateCore 100
          (listFull [] [("b", Entry.file [1]), ("A", Entry.dir [])]) 1 10 with
       | none => Except.error "runtime error: slice bounds out of range"
       | some r => Except.ok r) :=
  ⟨(C5_list_semantics "/p"
      (Entry.dir [("b", Entry.file [1]), ("A", Entry.dir [])]) "missing" 1
      10).2.1 (by decide) (by decide) (by rfl),
   ((C5_list_semantics "/p"
      (Entry.dir [("b", Entry.file [1]), ("A", Entry.dir [])]) "" 1 10).2.2.2
      [] [("b", Entry.file [1]), ("A", Entry.dir [])] rfl rfl).1⟩

/-! ## Lemmas: the search walk -/

/-- Whatever the walk callback adds has a lowercased name containing the
query and a non-hidden name. -/
theorem callbackStep_mem (q : String) (cutoff : Int) (name : String)
    (rel : List String) (e : Entry) (acc : List Item) :
    ∀ it ∈ (callbackStep q cutoff name rel e acc).1, it ∈ acc ∨
      (containsSub (toLowerStr it.name) q = true ∧ startsDot it.name = false) := by
  intro it hit
  unfold callbackStep at hit
  split at hit
  · exact .inl hit
  · split at hit
    · exact .inl hit
    · split at hit
      · rename_i h1 h2 h3
        rw [List.mem_append] at hit
        rcases hit with hit | hit
        · exact .inl hit
        · simp only [List.mem_singleton] at hit
          subst hit
          exact .inr ⟨h3, Bool.eq_false_iff.mpr h1⟩
      · exact .inl hit

/-- The callback never grows the accumulator beyond the cutoff (or beyond
its current length when the cutoff is already reached). -/
theorem callbackStep_len (q : String) (cutoff : Int) (name : String)
    (rel : List String) (e : Entry) (acc : List Item) :
    (((callbackStep q cutoff name rel e acc).1).length : Int) ≤
      max ((acc.length : Nat) : Int) cutoff := by
  unfold callbackStep
  split
  · exact le_max_left _ _
  · split
    · exact le_max_left _ _
    · split
      · rename_i h1 h2 h3
        simp only [List.length_append, List.length_singleton]
        push_cast
        omega
      · exact le_max_left _ _

/-- Every item collected by the walk was either already accumulated or has a
lowercased name containing the query and not starting with a dot. -/
theorem walk_mem (q : String) (cutoff : Int) (name : String)
    (rel : List String) (e : Entry) (acc : List Item) :
    ∀ it ∈ (walkE q cutoff name rel e acc).1, it ∈ acc ∨
      (containsSub (toLowerStr it.name) q = true ∧ startsDot it.name = false) := by
  refine walkE.induct q cutoff
    (fun name rel e acc => ∀ it ∈ (walkE q cutoff name rel e acc).1,
      it ∈ acc ∨
      (containsSub (toLowerStr it.name) q = true ∧ startsDot it.name = false))
    (fun base ch acc => ∀ it ∈ walkL q cutoff base ch acc, it ∈ acc ∨
      (containsSub (toLowerStr it.name) q = true ∧ startsDot it.name = false))
    ?_ ?_ ?_ ?_ ?_ ?_ name rel e acc
  · intro nm rl ac d it hit
    exact callbackStep_mem q cutoff nm rl (.file d) ac it hit
  · intro nm rl ac ch st hskip it hit
    replace hskip : (callbackStep q cutoff nm rl (Entry.dir ch) ac).2 = true :=
      hskip
    simp only [walkE.eq_def, hskip, if_true] at hit
    exact callbackStep_mem q cutoff nm rl (.dir ch) ac it hit
  · intro nm rl ac ch st hskip ih it hit
    replace hskip : (callbackStep q cutoff nm rl (Entry.dir ch) ac).2 = false :=
      Bool.eq_false_iff.mpr hskip
    simp only [walkE.eq_def, hskip, Bool.false_eq_true, if_false] at hit
    rcases ih it hit with hin | hq
    · exact callbackStep_mem q cutoff nm rl (.dir ch) ac it hin
    · exact .inr hq
  · intro base ac it hit
    exact .inl hit
  · intro base ac n e2 rest st hskip ih it hit
    replace hskip : ((walkE q cutoff n (base ++ [n]) e2 ac).2 &&
        isFileE e2) = true := hskip
    rw [walkL.eq_2, if_pos hskip] at hit
    exact ih it hit
  · intro base ac n e2 rest st hskip ih1 ih2 it hit
    replace hskip : ((walkE q cutoff n (base ++ [n]) e2 ac).2 &&
        isFileE e2) = false := Bool.eq_false_iff.mpr hskip
    rw [walkL.eq_2, if_neg (by simp [hskip])] at hit
    rcases ih2 it hit with hin | hq
    · exact ih1 it hin
    · exact .inr hq

/-- The walk never collects more than `max acc cutoff` items: the cutoff
check precedes every append. -/
theorem walk_len (q : String) (cutoff : Int) (name : String)
    (rel : List String) (e : Entry) (acc : List Item) :
    (((walkE q cutoff name rel e acc).1).length : Int) ≤
      max ((acc.length : Nat) : Int) cutoff := by
  refine walkE.induct q cutoff
    (fun name rel e acc => (((walkE q cutoff name rel e acc).1).length : Int) ≤
      max ((acc.length : Nat) : Int) cutoff)
    (fun base ch acc => (((walkL q cutoff base ch acc).length : Nat) : Int) ≤
      max ((acc.length : Nat) : Int) cutoff)
    ?_ ?_ ?_ ?_ ?_ ?_ name rel e acc
  · intro nm rl ac d
    exact callbackStep_len q cutoff nm rl (.file d) ac
  · intro nm rl ac ch st hskip
    replace hskip : (callbackStep q cutoff nm rl (Entry.dir ch) ac).2 = true :=
      hskip
    simp only [walkE.eq_def, hskip, if_true]
    exact callbackStep_len q cutoff nm rl (.dir ch) ac
  · intro nm rl ac ch st hskip ih
    replace hskip : (callbackStep q cutoff nm rl (Entry.dir ch) ac).2 = false :=
      Bool.eq_false_iff.mpr hskip
    simp only [walkE.eq_def, hskip, Bool.false_eq_true, if_false]
    have h1 := callbackStep_len q cutoff nm rl (.dir ch) ac
    replace ih : ((walkL q cutoff rl ch
        (callbackStep q cutoff nm rl (Entry.dir ch) ac).1).length : Int) ≤
        max (((callbackStep q cutoff nm rl
          (Entry.dir ch) ac).1.length : Nat) : Int) cutoff := ih
    omega
  · intro base ac
    exact le_max_left _ _
  · intro base ac n e2 rest st hskip ih
    replace hskip : ((walkE q cutoff n (base ++ [n]) e2 ac).2 &&
        isFileE e2) = true := hskip
    rw [walkL.eq_2, if_pos hskip]
    exact ih
  · intro base ac n e2 rest st hskip ih1 ih2
    replace hskip : ((walkE q cutoff n (base ++ [n]) e2 ac).2 &&
        isFileE e2) = false := Bool.eq_false_iff.mpr hskip
    rw [walkL.eq_2, if_neg (by simp [hskip])]
    replace ih2 : ((walkL q cutoff base rest
        (walkE q cutoff n (base ++ [n]) e2 ac).1).length : Int) ≤
        max (((walkE q cutoff n
          (base ++ [n]) e2 ac).1.length : Nat) : Int) cutoff := ih2
    omega

/-- The returned page of any successful pagination is a subset of the full
item list. -/
theorem goSlice_subset {α : Type} {items : List α} {s e : Int}
    {res : List α} (h : goSlice items s e = some res) :
    ∀ x ∈ res, x ∈ items := by
  unfold goSlice at h
  split at h
  · exact absurd h (by simp)
  · simp only [Option.some.injEq] at h
    subst h
    intro x hx
    exact List.drop_subset _ items (List.take_subset _ _ hx)

theorem paginateCore_items_subset {α : Type} {items : List α}
    {pageVal limitVal maxLimit : Int} {r : PaginatedItems α}
    (h : paginateCore maxLimit items pageVal limitVal = some r) :
    ∀ x ∈ r.items, x ∈ items := by
  simp only [paginateCore] at h
  split at h
  · split at h
    · exact absurd h (by simp)
    · rename_i sliced hsl
      simp only [Option.some.injEq] at h
      subst h
      intro x hx
      exact goSlice_subset hsl x hx
  · simp only [Option.some.injEq] at h
    subst h
    intro x hx
    simp at hx

theorem checkComponents_ok_inv {comps : List String}
    (h : checkComponents comps = .ok ()) :
    ∀ c ∈ comps, (startsDot c && !(c == ".")) = false := by
  induction comps with
  | nil => simp
  | cons c rest ih =>
    unfold checkComponents at h
    split at h
    · exact absurd h (by simp)
    · split at h
      · exact absurd h (by simp)
      · intro d hd
        rcases List.mem_cons.mp hd with rfl | hd2
        · rename_i h1 _
          exact Bool.eq_false_iff.mpr h1
        · exact ih h d hd2

theorem mem_cleanComponents_ne_dot {normalized : List Char} {c : String}
    (hc : c ∈ cleanComponents normalized) : ¬ (c = ".") := by
  unfold cleanComponents at hc
  obtain ⟨l, hl, rfl⟩ := List.mem_map.mp hc
  have hf := (List.mem_filter.mp hl).2
  intro hdot
  have hle : l = ['.'] := by
    have h2 := congrArg String.toList hdot
    simpa using h2
  rw [hle] at hf
  simp at hf

/-- Read-side resolution only returns non-hidden components. -/
theorem sanitizeRead_ok_nonhidden {pub input : String} {root : Entry}
    {comps : List String}
    (h : sanitizePathForRead pub root input = .ok comps) :
    ∀ c ∈ comps, startsDot c = false := by
  simp only [sanitizePathForRead] at h
  split at h
  · exact absurd h (by simp)
  · split at h
    · simp only [Except.ok.injEq] at h
      subst h
      intro c hc
      simp at hc
    · split at h
      · exact absurd h (by simp)
      · split at h
        · exact absurd h (by simp)
        · split at h
          · exact absurd h (by simp)
          · rename_i hchk
            simp only [Except.ok.injEq] at h
            subst h
            intro c hc
            have h1 := checkComponents_ok_inv hchk c hc
            have h2 := mem_cleanComponents_ne_dot hc
            cases hsd : startsDot c with
            | false => rfl
            | true =>
              rw [hsd] at h1
              simp only [Bool.true_and, Bool.not_eq_false'] at h1
              exact absurd (by simpa using h1) h2

/-- Inversion of a successful `listItemsAt`. -/
theorem listItemsAt_ok_inv {root : Entry} {comps : List String}
    {pageVal limitVal : Int} {r : PaginatedItems Item}
    (h : listItemsAt root comps pageVal limitVal = .ok r) :
    ∃ ch, lookup root comps = some (.dir ch) ∧
      paginateCore 100 (listFull comps ch) pageVal limitVal = some r := by
  unfold listItemsAt at h
  split at h
  · exact absurd h (by simp)
  · exact absurd h (by simp)
  · rename_i ch hlk
    split at h
    · exact absurd h (by simp)
    · rename_i r2 hpag
      simp only [Except.ok.injEq] at h
      subst h
      exact ⟨ch, hlk, hpag⟩

/-- Inversion of a successful `ListItems`: some directory was resolved with
only non-hidden components, and the result paginates its full listing. -/
theorem ListItems_ok_inv {pub : String} {root : Entry} {path : String}
    {pageVal limitVal : Int} {r : PaginatedItems Item}
    (h : ListItems pub root path pageVal limitVal = .ok r) :
    ∃ comps ch, (∀ c ∈ comps, startsDot c = false) ∧
      lookup root comps = some (.dir ch) ∧
      paginateCore 100 (listFull comps ch) pageVal limitVal = some r := by
  unfold ListItems at h
  split at h
  · obtain ⟨ch, hl, hp⟩ := listItemsAt_ok_inv (show listItemsAt root []
      pageVal limitVal = .ok r from h)
    exact ⟨[], ch, by simp, hl, hp⟩
  · simp only [listItemsImpl] at h
    split at h
    · exact absurd h (by simp)
    · rename_i comps hs
      obtain ⟨ch, hl, hp⟩ := listItemsAt_ok_inv h
      exact ⟨comps, ch, sanitizeRead_ok_nonhidden hs, hl, hp⟩

/-- Inversion of a successful `SearchItems`. -/
theorem SearchItems_ok_inv {rootName : String} {root : Entry} {query : String}
    {pageVal limitVal : Int} {r : PaginatedItems Item}
    (h : SearchItems rootName root query pageVal limitVal = .ok r) :
    paginateCore 500 ((walkE (toLowerStr query)
        (toInt32 (toInt32 pageVal * toInt32 limitVal)) rootName []
        (sortTree root) []).1) pageVal limitVal = some r := by
  simp only [SearchItems] at h
  split at h
  · exact absurd h (by simp)
  · split at h
    · exact absurd h (by simp)
    · rename_i r2 hpag
      simp only [Except.ok.injEq] at h
      subst h
      exact hpag

/-! ## Claim C8 -/

/-- **C8, counterexample.**  The walk cutoff is *not* the mathematical
`page*limit`: it is `int(int32(pageVal) * int32(limitVal))` on the raw,
unclamped inputs.  With `page = limit = 2^20` the int32 product wraps to 0,
so a matching entry is never collected (total 0), although a walk cut off at
the mathematical product `2^40` collects it. -/
theorem C8_counterexample :
    SearchItems "public" (Entry.dir [("x1", Entry.file [])]) "x"
        1048576 1048576 =
      .ok ⟨[], 0, 1048576, 500, 0, false, true⟩ ∧
    (walkE "x" ((1048576 : Int) * 1048576) "public" []
        (sortTree (Entry.dir [("x1", Entry.file [])])) []).1 =
      [⟨"x1", ["x1"], 0, false⟩] :=
  ⟨rfl, by decide⟩

/-- **C8 (amended).**  Search rejects queries that are empty or longer than
255 bytes; otherwise it paginates (limit clamp `[10,500]`) the collected
set, where the collection is cut off at `int32(pageVal) * int32(limitVal)`
(int32 wrap-around, raw inputs): the collected set never exceeds that
cutoff, and every collected item's name contains the query
case-insensitively. -/
theorem C8_search_semantics (rootName : String) (root : Entry)
    (query : String) (pageVal limitVal : Int) :
    ((toLowerStr query) = "" ∨ 255 < (toLowerStr query).utf8ByteSize →
       SearchItems rootName root query pageVal limitVal =
         .error "Search query must be 1-255 characters") ∧
    (¬ ((toLowerStr query) = "" ∨ 255 < (toLowerStr query).utf8ByteSize) →
       SearchItems rootName root query pageVal limitVal =
         (match paginateCore 500
             ((walkE (toLowerStr query)
                 (toInt32 (toInt32 pageVal * toInt32 limitVal)) rootName []
                 (sortTree root) []).1) pageVal limitVal with
          | none => .error "runtime error: slice bounds out of range"
          | some r => .ok r)) ∧
    (((walkE (toLowerStr query) (toInt32 (toInt32 pageVal * toInt32 limitVal))
        rootName [] (sortTree root) []).1.length : Int) ≤
      max 0 (toInt32 (toInt32 pageVal * toInt32 limitVal))) ∧
    (∀ it ∈ (walkE (toLowerStr query)
        (toInt32 (toInt32 pageVal * toInt32 limitVal)) rootName []
        (sortTree root) []).1,
      containsSub (toLowerStr it.name) (toLowerStr query) = true) := by
  refine ⟨?_, ?_, ?_, ?_⟩
  · intro h
    simp only [SearchItems]
    rw [if_pos h]
  · intro h
    simp only [SearchItems]
    rw [if_neg h]
  · have := walk_len (toLowerStr query) (toInt32 (toInt32 pageVal * toInt32 limitVal))
      rootName [] (sortTree root) []
    simpa [max_comm] using this
  · intro it hit
    rcases walk_mem (toLowerStr query)
        (toInt32 (toInt32 pageVal * toInt32 limitVal)) rootName []
        (sortTree root) [] it hit with hin | hq
    · simp at hin
    · exact hq.1

/-- **C8, witness.** -/
theorem C8_witness :
    SearchItems "public" (Entry.dir [("x1", Entry.file [])]) "" 1 10 =
      .error "Search query must be 1-255 characters" ∧
    SearchItems "public" (Entry.dir [("x1", Entry.file [])]) "x" 1 10 =
      (match paginateCore 500
          ((walkE (toLowerStr "x") (toInt32 (toInt32 1 * toInt32 10)) "public" []
              (sortTree (Entry.dir [("x1", Entry.file [])])) []).1) 1 10 with
       | none => Except.error "runtime error: slice bounds out of range"
       | some r => Except.ok r) :=
  ⟨(C8_search_semantics "public" (Entry.dir [("x1", Entry.file [])]) "" 1
      10).1 (by decide),
   (C8_search_semantics "public" (Entry.dir [("x1", Entry.file [])]) "x" 1
      10).2.1 (by decide)⟩

/-! ## Claim C9 -/

/-- **C9, counterexample.**  The search walk skips hidden entries themselves
but still descends into hidden directories (the callback returns `nil`, not
`SkipDir`, for them), so Search can return an item whose relative path has a
hidden component: here `".h/x.txt"`. -/
theorem C9_counterexample :
    SearchItems "public"
        (Entry.dir [(".h", Entry.dir [("x.txt", Entry.file [])])]) "x" 1 10 =
      .ok ⟨[⟨"x.txt", [".h", "x.txt"], 0, false⟩], 1, 1, 10, 1, false,
        false⟩ ∧
    startsDot ".h" = true :=
  ⟨rfl, by decide⟩

/-- **C9 (amended).**  Every item returned by `ListItems` has a non-hidden
name and no hidden component anywhere in its relative path; every item
returned by `SearchItems` has a non-hidden name (but its path may contain
hidden directory components, as the counterexample shows). -/
theorem C9_hidden_exclusion (pub rootName : String) (root : Entry)
    (path query : String) (pageVal limitVal : Int) :
    (∀ r, ListItems pub root path pageVal limitVal = .ok r →
       ∀ it ∈ r.items, startsDot it.name = false ∧
         ∀ comp ∈ it.path, startsDot comp = false) ∧
    (∀ r, SearchItems rootName root query pageVal limitVal = .ok r →
       ∀ it ∈ r.items, startsDot it.name = false) := by
  constructor
  · intro r hok it hit
    obtain ⟨comps, ch, hnh, hl, hp⟩ := ListItems_ok_inv hok
    have hmem : it ∈ listFull comps ch := paginateCore_items_subset hp it hit
    have hmem2 := (listFull_perm comps ch).mem_iff.mp hmem
    obtain ⟨⟨nm, e⟩, hpe, hfe⟩ := List.mem_filterMap.mp hmem2
    by_cases hdot : startsDot nm = true
    · rw [if_pos hdot] at hfe
      exact absurd hfe (by simp)
    · rw [if_neg hdot] at hfe
      simp only [Option.some.injEq] at hfe
      subst hfe
      refine ⟨Bool.eq_false_iff.mpr hdot, ?_⟩
      intro comp hcomp
      rcases List.mem_append.mp hcomp with hin | hin
      · exact hnh comp hin
      · simp only [List.mem_singleton] at hin
        subst hin
        exact Bool.eq_false_iff.mpr hdot
  · intro r hok it hit
    have hp := SearchItems_ok_inv hok
    have hmem := paginateCore_items_subset hp it hit
    rcases walk_mem (toLowerStr query)
        (toInt32 (toInt32 pageVal * toInt32 limitVal)) rootName []
        (sortTree root) [] it hmem with hin | hq
    · simp at hin
    · exact hq.2

/-- **C9, witness.** -/
theorem C9_witness :
    ∀ it ∈ ((⟨[⟨"b", ["b"], 1, false⟩], 1, 1, 10, 1, false, false⟩ :
          PaginatedItems Item)).items,
      startsDot it.name = false ∧ ∀ comp ∈ it.path, startsDot comp = false :=
  (C9_hidden_exclusion "/p" "public" (Entry.dir [("b", Entry.file [7])]) ""
    "x" 1 10).1 _ rfl

/-! ## Claim C10 -/

/-- **C10.**  `DeleteItem` with an empty (or all-slash) relative path passes
validation: the read resolver maps the empty normalized input to the root
itself, the stat succeeds, and `os.RemoveAll` erases the whole store
(post-state `none`), reported as success with a `file_deleted`
notification. -/
theorem C10_delete_empty_path (pub : String) (ch : List (String × Entry)) :
    DeleteItem pub (.dir ch) "" = (none, .ok (), ["file_deleted"]) ∧
    DeleteItem pub (.dir ch) "///" = (none, .ok (), ["file_deleted"]) := by
  constructor <;> rfl

end AxolotlDrive
